import Mathlib

/-! The share scheduler of `src/index.js`.

A shallow embedding of the job registry `total`, of `share` with its nested
`sharePost`, of the timers they create, and of `convertCookie`.

The program runs on a single-threaded event loop.  One turn of the loop is
modelled as one `Event`; a turn runs to completion before the next starts.
Everything the program cannot decide itself is an input of the model: what
the two resolver calls return, what `Date.now()` returns, how each remote
write settles, how much time passes between turns and which due timer runs
next.  A timer never runs before it is due; it may run late, and due timers
run in any order, but for the one order fixed by `inTurn`.
-/

namespace Guard

/-! ## The registry `total` (a JavaScript `Map` with string keys) -/

/-- One value of the registry: the object with fields `url`, `id`, `count`, `target`. -/
structure Link where
  url : String
  id : String
  count : Nat
  target : Nat
  deriving DecidableEq, Repr

/-- A `Map` from string keys to `Link`, kept as its entries in insertion order. -/
abbrev Registry := List (String × Link)

/-- The keys of the map, in insertion order. -/
def mapKeys (m : Registry) : List String := m.map Prod.fst

/-- The method `Map.prototype.has`. -/
def mapHas (m : Registry) (k : String) : Bool := decide (k ∈ mapKeys m)

/-- The method `Map.prototype.get`; `none` stands for `undefined`. -/
def mapGet : Registry → String → Option Link
  | [], _ => none
  | (k1, v1) :: m, k => if k1 = k then some v1 else mapGet m k

/-- The method `Map.prototype.set`: an existing key keeps its position and gets the new
value, a new key is appended. -/
def mapSet : Registry → String → Link → Registry
  | [], k, v => [(k, v)]
  | (k1, v1) :: m, k, v => if k1 = k then (k, v) :: m else (k1, v1) :: mapSet m k v

/-- The method `Map.prototype.delete`; deleting an absent key changes nothing. -/
def mapDelete (m : Registry) (k : String) : Registry := m.filter (fun e => decide (e.1 ≠ k))

/-! ## Values produced outside the program -/

/-- What `getPostID` hands back: `response.data.id` (the id as a string when the service
found the post, `undefined` when the answer has no `id`), or `null` from its `catch`. -/
inductive IdValue where
  | undefined
  | null
  | str (s : String)
  deriving DecidableEq, Repr

/-- JavaScript truthiness of an `IdValue`, as tested by `!id`. -/
def IdValue.truthy : IdValue → Option String
  | .undefined => none
  | .null => none
  | .str s => if s = "" then none else some s

/-- How one `axios.post` of `sharePost` settles: no answer at all, or an HTTP answer. -/
inductive Reply where
  | networkError
  | status (code : Nat)
  deriving DecidableEq, Repr

/-- The promise of `axios.post` resolves exactly for a status in `200..299` (the default
`validateStatus` of axios); otherwise it rejects and the `catch` of `sharePost` runs. -/
def Reply.resolved : Reply → Option Nat
  | .networkError => none
  | .status code => if 200 ≤ code ∧ code < 300 then some code else none

/-- A remote write that failed: a network error or a non-success (non-2xx) response. -/
def Reply.failed (r : Reply) : Prop := r.resolved = none

instance (r : Reply) : Decidable r.failed := by
  unfold Reply.failed; exact inferInstance

/-! ## Timers -/

/-- Largest delay Node.js accepts for `setTimeout` and `setInterval`. -/
def TIMEOUT_MAX : Nat := 2147483647

/-- The delay Node.js really uses for a requested delay of `ms` milliseconds: a delay
below 1 or above `TIMEOUT_MAX` is replaced by 1 (documented behaviour of the `timers`
module, which also prints a `TimeoutOverflowWarning`). -/
def timerDelay (ms : Nat) : Nat := if 1 ≤ ms ∧ ms ≤ TIMEOUT_MAX then ms else 1

/-- The observation window of the source, in milliseconds. -/
def WINDOW : Nat := 300000

/-- A pending timer created by `setTimeout(() => { total.delete(postId) }, 300000)`: the
instant (ms) from which it may run and the key its closure deletes. -/
structure Removal where
  due : Nat
  postId : String
  deriving DecidableEq, Repr

/-! ## One closure of `share` -/

/-- The variables captured by the closures of one call of `share`, with the state of the
two timers the call creates.
* `timer`: the variable `timer`, the handle of `setInterval(sharePost, interval * 1000)`:
  `some t` while the timer is armed, `t` being the instant of its next run, `none` once
  `clearInterval(timer)` has been called;
* `deadline`: the timer of `setTimeout(.., amount * interval * 1000)`: `some t` until it
  has run.  The source keeps no handle of it and never clears it;
* `posts` counts the `axios.post` calls issued so far by `sharePost` and `pending` those
  not yet settled: they are the trace of the remote writes, the program never reads them. -/
structure Job where
  postId : String
  id : String
  url : String
  cookies : String
  accessToken : Option String
  amount : Nat
  interval : Nat
  sharedCount : Nat
  timer : Option Nat
  deadline : Option Nat
  posts : Nat
  pending : Nat
  deriving DecidableEq, Repr

/-- The call `clearInterval(timer)`.  Clearing a cleared timer changes nothing. -/
def clearInterval (job : Job) : Job := { job with timer := none }

/-- The whole state: the clock of the event loop (ms), the registry `total`, one `Job`
per call of `share` that got past its check (numbered from 0 in call order), and the
pending deletion timers. -/
structure World where
  now : Nat
  total : Registry
  jobs : List Job
  removals : List Removal
  deriving DecidableEq, Repr

/-- State of a freshly started process. -/
def World.init : World := { now := 0, total := [], jobs := [], removals := [] }

/-- The error `share` throws when there is no post id. -/
def noIdError : String :=
  "Unable to get link id: invalid URL, it's either a private post or visible to friends only"

/-- The key `share` stores the record under:
`total.has(id) ? id + '_' + Date.now() : id`. -/
def sharePostId (total : Registry) (id : String) (dateNow : Nat) : String :=
  if mapHas total id then id ++ "_" ++ toString dateNow else id

/-- The function `share`, from the point where both awaited calls have settled: `id` is
what `getPostID(url)` returned, `accessToken` what `getAccessToken(cookies)` returned
(`none` for `null`), `dateNow` what `Date.now()` returns; `amount` and `interval` are
natural numbers.  The result is the state afterwards and the thrown error, if any. -/
def share (w : World) (cookies url : String) (amount interval : Nat)
    (id : IdValue) (accessToken : Option String) (dateNow : Nat) : World × Option String :=
  match id.truthy with
  | none => (w, some noIdError)
  | some id =>
    let postId := sharePostId w.total id dateNow
    let total := mapSet w.total postId { url := url, id := id, count := 0, target := amount }
    let job : Job :=
      { postId := postId, id := id, url := url, cookies := cookies, accessToken := accessToken,
        amount := amount, interval := interval, sharedCount := 0,
        timer := some (w.now + timerDelay (interval * 1000)),
        deadline := some (w.now + timerDelay (amount * interval * 1000)),
        posts := 0, pending := 0 }
    ({ w with total := total, jobs := w.jobs ++ [job] }, none)

/-! ## The callbacks

Each takes the number `j` of the closure it belongs to and the current variables `job`
of that closure, and writes the variables back. -/

/-- The `catch` block of `sharePost`: `clearInterval(timer); total.delete(postId)`. -/
def sharePostCatch (w : World) (j : Nat) (job : Job) : World :=
  { w with jobs := w.jobs.set j (clearInterval job), total := mapDelete w.total job.postId }

/-- The test `if (sharedCount === amount)` at the end of the `try` block of `sharePost`
and its branch: `clearInterval(timer)` and `setTimeout(() => total.delete(postId), 300000)`. -/
def sharePostDone (w : World) (j : Nat) (job : Job) : World :=
  if job.sharedCount = job.amount then
    { w with jobs := w.jobs.set j (clearInterval job),
             removals := w.removals ++
               [{ due := w.now + timerDelay WINDOW, postId := job.postId }] }
  else { w with jobs := w.jobs.set j job }

/-- The part of `sharePost` that runs once its `axios.post` has settled with `r`.
A status other than 200 skips the update; reading `.count` of an absent entry throws a
`TypeError`, which lands in the `catch` like a rejected request. -/
def sharePostSettled (w : World) (j : Nat) (job : Job) (r : Reply) : World :=
  match r.resolved with
  | none => sharePostCatch w j job
  | some status =>
    if status = 200 then
      match mapGet w.total job.postId with
      | none => sharePostCatch w j job
      | some link =>
        sharePostDone
          { w with total := mapSet w.total job.postId { link with count := link.count + 1 } }
          j { job with sharedCount := job.sharedCount + 1 }
    else sharePostDone w j job

/-- The first part of `sharePost`, up to its `await`: one `axios.post` is issued.  The
interval timer is re-armed for `interval * 1000` ms after the instant the callback started. -/
def sharePostStart (w : World) (j : Nat) (job : Job) : World :=
  let job1 : Job :=
    { job with posts := job.posts + 1, pending := job.pending + 1,
               timer := some (w.now + timerDelay (job.interval * 1000)) }
  { w with jobs := w.jobs.set j job1 }

/-- The callback of the deadline timer: `clearInterval(timer)` and a second `setTimeout`
that deletes the entry `300000` ms later. -/
def cleanup (w : World) (j : Nat) (job : Job) : World :=
  { w with jobs := w.jobs.set j (clearInterval { job with deadline := none }),
           removals := w.removals ++
             [{ due := w.now + timerDelay WINDOW, postId := job.postId }] }

/-! ## The event loop -/

/-- One turn of the event loop.
* `advance dt`: `dt` ms pass;
* `share ..`: a call of `share` reaches the end of its two awaits;
* `tick j`: the recurring timer of job `j` runs `sharePost` up to its `await`;
* `deadline j`: the deadline timer of job `j` runs;
* `remove r`: the pending deletion timer `r` runs;
* `settle j r`: one outstanding `axios.post` of job `j` settles with `r` and the rest of
  that `sharePost` call runs. -/
inductive Event where
  | advance (dt : Nat)
  | share (cookies url : String) (amount interval : Nat) (id : IdValue)
      (accessToken : Option String) (dateNow : Nat)
  | tick (j : Nat)
  | deadline (j : Nat)
  | remove (r : Removal)
  | settle (j : Nat) (r : Reply)
  deriving DecidableEq, Repr

/-- A timer due at `due` may run once that instant is reached.  It may run late, and
timers that are due run in any order. -/
def canFire (w : World) (due : Nat) : Bool := decide (due ≤ w.now)

/-- The one order among the timers of a job that the timer phase of Node.js fixes.  A
pass of that phase (`processTimers` in `lib/internal/timers.js`) runs every timer that is
due at the time of the pass, list after list, and a recurring timer is re-inserted by
`listOnTimeout` with the time of the pass as its start, so that it is not due again in
that pass.  Hence, when the recurring timer was re-armed at an instant at which the
deadline timer of the job was already due, the deadline timer runs in the pass of the
re-arming callback, before the recurring timer runs again.  The recurring timer due at
`due` was re-armed at `due - every`, `every` being its delay; the test says that the
deadline timer, due at `c`, was not yet due then.  A recurring timer armed before the
deadline timer was due may run before or after it, also when it is due later. -/
def inTurn (job : Job) (due : Nat) : Bool :=
  match job.deadline with
  | none => true
  | some c => decide (due < c + timerDelay (job.interval * 1000))

/-- The state after one event; `none` when the event cannot happen in `w`. -/
def step (w : World) : Event → Option World
  | .advance dt => some { w with now := w.now + dt }
  | .share cookies url amount interval id accessToken dateNow =>
    some (share w cookies url amount interval id accessToken dateNow).1
  | .tick j =>
    match w.jobs[j]? with
    | none => none
    | some job =>
      match job.timer with
      | none => none
      | some due =>
        if canFire w due && inTurn job due then some (sharePostStart w j job) else none
  | .deadline j =>
    match w.jobs[j]? with
    | none => none
    | some job =>
      match job.deadline with
      | none => none
      | some due => if canFire w due then some (cleanup w j job) else none
  | .remove r =>
    if decide (r ∈ w.removals) && canFire w r.due then
      some { w with removals := w.removals.erase r, total := mapDelete w.total r.postId }
    else none
  | .settle j r =>
    match w.jobs[j]? with
    | none => none
    | some job =>
      if job.pending = 0 then none
      else some (sharePostSettled w j { job with pending := job.pending - 1 } r)

/-- The state after a sequence of events; `none` when one of them cannot happen. -/
def run (w : World) : List Event → Option World
  | [] => some w
  | e :: es => (step w e).bind (fun w1 => run w1 es)

/-! ## Reading back the decimal text of a number -/

/-- The value of a decimal digit character. -/
def digitVal (c : Char) : Nat := c.toNat - 48

/-- The number written by the decimal digits `l`, after the digits already read as `acc`. -/
def decodeDigits (acc : Nat) (l : List Char) : Nat :=
  l.foldl (fun a c => a * 10 + digitVal c) acc

/-! ## Invariants of the reachable states -/

/-- The delay of the recurring timer of a job, as `share` requests it. -/
def everyOf (job : Job) : Nat := timerDelay (job.interval * 1000)

/-- The delay of the deadline timer of a job, as `share` requests it. -/
def deadlineOf (job : Job) : Nat := timerDelay (job.amount * job.interval * 1000)

/-- What holds of every closure in every reachable state:
* the writes counted as shared and the outstanding ones are among the writes issued;
* while the recurring timer is armed the deadline timer is pending too, and the next run
  of the recurring timer is at least `posts + 1` periods after the start of the job;
* a job with a positive `amount` has issued at most `amount` writes. -/
structure JobOk (job : Job) : Prop where
  settled : job.sharedCount + job.pending ≤ job.posts
  armed : ∀ t, job.timer = some t →
    ∃ c, job.deadline = some c ∧ c + (job.posts + 1) * everyOf job ≤ t + deadlineOf job
  bounded : 1 ≤ job.amount → job.posts ≤ job.amount

/-- The sum of `sharedCount` over the closures whose `postId` is the key `k`. -/
def sharedSum : List Job → String → Nat
  | [], _ => 0
  | job :: jobs, k => (if job.postId = k then job.sharedCount else 0) + sharedSum jobs k

/-- The invariant of the registry and the closures:
* every closure satisfies `JobOk`;
* the `count` of a record is at most the successes counted by the jobs stored under its key;
* the `target` of a record is the `amount` of a job stored under its key. -/
structure Inv (total : Registry) (jobs : List Job) : Prop where
  closures : ∀ job ∈ jobs, JobOk job
  counts : ∀ p ∈ total, p.2.count ≤ sharedSum jobs p.1
  targets : ∀ p ∈ total, ∃ job ∈ jobs, job.postId = p.1 ∧ p.2.target = job.amount

/-- The recurring timer of job `j` is cleared and the job has issued `n` writes so far. -/
def Stopped (w : World) (j n : Nat) : Prop :=
  ∃ job, w.jobs[j]? = some job ∧ job.timer = none ∧ job.posts = n

/-- The keys of the jobs, in call order. -/
def jobKeys (w : World) : List String := w.jobs.map Job.postId

/-- A job that can no longer write: its recurring timer is cleared and none of its
remote writes is outstanding. -/
def Job.over (job : Job) : Prop := job.timer = none ∧ job.pending = 0

instance (job : Job) : Decidable job.over := by
  unfold Job.over; exact inferInstance

/-- Job `n` is stored under the key `k` with the target `amount`, the jobs stored under
`k` before it can no longer write, and the record under `k`, while present, has the
target `amount` and counts at most the successes job `n` has counted. -/
structure Owns (w : World) (n : Nat) (k : String) (amount : Nat) : Prop where
  earlier : ∀ i job, i < n → w.jobs[i]? = some job → job.postId = k → job.over
  owner : ∃ job, w.jobs[n]? = some job ∧ job.postId = k ∧ job.amount = amount ∧
    ∀ link, mapGet w.total k = some link →
      link.target = amount ∧ link.count ≤ job.sharedCount

/-- Whether an event is a submission. -/
def Event.isShare : Event → Bool
  | .share .. => true
  | _ => false

/-- Nothing can change a record before the instant `bound`: the clock has reached
`since`, no write is outstanding, no recurring timer is armed, and every pending deletion
is due `300000` ms after `since` or later. -/
structure Quiet (w : World) (since : Nat) : Prop where
  clock : since ≤ w.now
  deletions : ∀ r ∈ w.removals, since + 300000 ≤ r.due
  idle : ∀ job ∈ w.jobs, job.pending = 0 ∧ job.timer = none

/-! ## `convertCookie` -/

/-- A value produced by `JSON.parse`.  A number is carried as the text JavaScript prints
for it, the only thing `convertCookie` can do with a number; an object is the list of its
own properties, each name once. -/
inductive Json where
  | null
  | bool (b : Bool)
  | num (text : String)
  | str (s : String)
  | arr (items : List Json)
  | obj (fields : List (String × Json))
  deriving Repr

/-- A JavaScript value met in `convertCookie`: a parsed value, or `undefined` (`none`). -/
abbrev JsValue := Option Json

/-- One step of `Array.prototype.join` with separator `,`: `head` is the text of the
first element, `tail` the joined rest, `last` tells whether there is no rest; `none` when
one of the conversions threw. -/
def joinStep (head : Option String) (last : Bool) (tail : Option String) : Option String :=
  match head, tail with
  | some a, some b => some (if last then a else a ++ "," ++ b)
  | _, _ => none

mutual
/-- The abstract operation `ToString` on a parsed value; `none` when it throws a
`TypeError`.  An array is printed by `Array.prototype.join`; a plain object is printed
`[object Object]` by `Object.prototype.toString`, unless it has an own property
`toString` (never callable in parsed JSON), in which case no method yields a primitive. -/
def Json.toStr : Json → Option String
  | .null => some "null"
  | .bool b => some (if b then "true" else "false")
  | .num text => some text
  | .str s => some s
  | .arr items => Json.joinItems items
  | .obj fields =>
    if fields.any (fun f => f.1 == "toString") then none else some "[object Object]"
/-- The method `Array.prototype.join` with separator `,` on parsed values: `null` prints
as the empty string. -/
def Json.joinItems : List Json → Option String
  | [] => some ""
  | x :: xs =>
    joinStep (match x with | .null => some "" | y => Json.toStr y) xs.isEmpty
      (Json.joinItems xs)
end

/-- The operation `ToString` as used by a template literal. -/
def jsToString : JsValue → Except String String
  | none => .ok "undefined"
  | some j =>
    match j.toStr with
    | some s => .ok s
    | none => .error "Cannot convert object to primitive value"

/-- The property reads `c.key` and `c.value` (`name` is one of these two names) on a
parsed value: an object yields its own property or `undefined`, `null` throws a
`TypeError`, every other value yields `undefined`. -/
def getProp (c : Json) (name : String) : Except String JsValue :=
  match c with
  | .null => .error ("Cannot read properties of null (reading '" ++ name ++ "')")
  | .obj fields => .ok ((fields.find? (fun f => f.1 == name)).map Prod.snd)
  | _ => .ok none

/-- The test `c.key === "sb"` on the value read. -/
def isSb : JsValue → Bool
  | some (.str s) => s == "sb"
  | _ => false

/-- The call `cookies.find(c => c.key === "sb")`: the first element that passes the
test, `undefined` when there is none; an exception of the callback ends the search. -/
def findSb : List Json → Except String (Option Json)
  | [] => .ok none
  | c :: cs =>
    match getProp c "key" with
    | .error e => .error e
    | .ok k => if isSb k then .ok (some c) else findSb cs

/-- The template literal `${c.key}=${c.value}`. -/
def cookiePair (c : Json) : Except String String :=
  match getProp c "key" with
  | .error e => .error e
  | .ok k =>
    match jsToString k with
    | .error e => .error e
    | .ok ks =>
      match getProp c "value" with
      | .error e => .error e
      | .ok v =>
        match jsToString v with
        | .error e => .error e
        | .ok vs => .ok (ks ++ "=" ++ vs)

/-- The call `.map(c => ..)` with the template literal above as its callback. -/
def cookiePairs : List Json → Except String (List String)
  | [] => .ok []
  | c :: cs =>
    match cookiePair c with
    | .error e => .error e
    | .ok p =>
      match cookiePairs cs with
      | .error e => .error e
      | .ok ps => .ok (p :: ps)

/-- The method `Array.prototype.join` on an array of strings. -/
def joinWith (sep : String) : List String → String
  | [] => ""
  | [x] => x
  | x :: y :: rest => x ++ sep ++ joinWith sep (y :: rest)

/-- The text built after `sbCookie` has been found: the value of `data`. -/
def cookieData (cookies : List Json) (sbCookie : Json) : Except String String :=
  match getProp sbCookie "value" with
  | .error e => .error e
  | .ok sbValue =>
    match jsToString sbValue with
    | .error e => .error e
    | .ok v =>
      match cookiePairs (cookies.drop 1) with
      | .error e => .error e
      | .ok ps => .ok ("sb=" ++ v ++ "; " ++ joinWith "; " ps)

/-- The function `convertCookie`: `.ok data` when the promise resolves with `data`,
`.error reason` when it rejects.  `jsonParse` is `JSON.parse`, which returns the parsed
value or throws; the messages of thrown errors are those of V8. -/
def convertCookie (jsonParse : String → Except String Json) (cookie : String) :
    Except String String :=
  match jsonParse cookie with
  | .error e => .error ("Error processing appstate: " ++ e)
  | .ok (.arr cookies) =>
    match findSb cookies with
    | .error e => .error ("Error processing appstate: " ++ e)
    | .ok none => .error "Detect invalid appstate: missing 'sb' cookie"
    | .ok (some sbCookie) =>
      match cookieData cookies sbCookie with
      | .error e => .error ("Error processing appstate: " ++ e)
      | .ok data => .ok data
  | .ok _ => .error "Invalid appstate format: must be an array"

/-- The handler of `POST /api/submit`, from the request body to the HTTP status of the
answer; the body fields are taken as strings and natural numbers, a missing field being
the empty string or 0.  `id`, `accessToken` and `dateNow` are as in `share`. -/
def submit (jsonParse : String → Except String Json) (w : World) (cookie url : String)
    (amount interval : Nat) (id : IdValue) (accessToken : Option String) (dateNow : Nat) :
    World × Nat :=
  if cookie = "" ∨ url = "" ∨ amount = 0 ∨ interval = 0 then (w, 400)
  else
    match convertCookie jsonParse cookie with
    | .error _ => (w, 500)
    | .ok cookies =>
      if cookies = "" then (w, 400)
      else
        match share w cookies url amount interval id accessToken dateNow with
        | (w1, none) => (w1, 200)
        | (w1, some _) => (w1, 500)

/-- An element whose `key` is the string `sb`. -/
def hasKeySb (c : Json) : Prop := getProp c "key" = .ok (some (.str "sb"))

mutual
/-- Whether `ToString` yields a text for a parsed value, read off its shape: the value is
not an object with an own property `toString`, and if it is an array this holds of its
elements. -/
def Json.printable : Json → Bool
  | .arr items => Json.allPrintable items
  | .obj fields => !fields.any (fun f => f.1 == "toString")
  | _ => true
/-- Whether every value of the list is printable. -/
def Json.allPrintable : List Json → Bool
  | [] => true
  | x :: xs => Json.printable x && Json.allPrintable xs
end

/-- Whether the property `name` of `c` can be read and printed by a template literal. -/
def printsProp (c : Json) (name : String) : Bool :=
  match getProp c name with
  | .ok (some v) => v.printable
  | .ok none => true
  | .error _ => false

/-- A `{key, value}` object: an object with own properties `key` and `value`. -/
def isPair (c : Json) : Bool :=
  match getProp c "key", getProp c "value" with
  | .ok (some _), .ok (some _) => true
  | _, _ => false

/-- A closure of a job with `amount = 1` and `interval = 1` stored under the key `100`,
for the examples. -/
def sampleJob (timer deadline : Option Nat) (sharedCount posts pending : Nat) : Job :=
  { postId := "100", id := "100", url := "u", cookies := "c", accessToken := some "EAAG",
    amount := 1, interval := 1, sharedCount := sharedCount, timer := timer,
    deadline := deadline, posts := posts, pending := pending }

/-- A `JSON.parse` that answers every text with the appstate
`[{"key":"sb","value":"abc"},{"key":"c_user","value":"42"}]`, for the examples. -/
def parseSample : String → Except String Json :=
  fun _ => .ok (.arr [.obj [("key", .str "sb"), ("value", .str "abc")],
                      .obj [("key", .str "c_user"), ("value", .str "42")]])

/-- The credentials that are to be refused: text that is not JSON, JSON that is not an
array, an array without an element whose `key` is `sb`. -/
def BadCredential (jsonParse : String → Except String Json) (cookie : String) : Prop :=
  (∃ e, jsonParse cookie = .error e) ∨
  (∃ j, jsonParse cookie = .ok j ∧ ∀ items, j ≠ .arr items) ∨
  (∃ items, jsonParse cookie = .ok (.arr items) ∧ ∀ c ∈ items, ¬ hasKeySb c)

/-- A credential that parses to an array of `{key, value}` objects, one of which has the
`key` `sb`. -/
def PairsWithSb (jsonParse : String → Except String Json) (cookie : String) : Prop :=
  ∃ items, jsonParse cookie = .ok (.arr items) ∧ (∀ c ∈ items, isPair c = true) ∧
    ∃ c ∈ items, hasKeySb c

/-- The credentials that are accepted: an array of `{key, value}` objects, one of which
has the `key` `sb`, such that the `value` of the first element with the `key` `sb` is
printable, and so are the `key` and the `value` of every element but the first of the
array. -/
def GoodCredential (jsonParse : String → Except String Json) (cookie : String) : Prop :=
  ∃ items before sbCookie after, jsonParse cookie = .ok (.arr items) ∧
    (∀ c ∈ items, isPair c = true) ∧
    items = before ++ sbCookie :: after ∧ hasKeySb sbCookie ∧ (∀ x ∈ before, ¬ hasKeySb x) ∧
    printsProp sbCookie "value" = true ∧
    ∀ c ∈ items.drop 1, printsProp c "key" = true ∧ printsProp c "value" = true

/-- A `JSON.parse` that answers every text with the appstate
`[{"key":"sb","value":{"toString":1}}]`, for the examples. -/
def parseUnprintable : String → Except String Json :=
  fun _ => .ok (.arr [.obj [("key", .str "sb"), ("value", .obj [("toString", .num "1")])]])

/-- A `JSON.parse` that answers every text with the appstate
`[{"key":"sb","value":"abc"},{"key":"x","value":[{"toString":null}]}]`, for the examples. -/
def parseUnprintableLater : String → Except String Json :=
  fun _ => .ok (.arr [.obj [("key", .str "sb"), ("value", .str "abc")],
                      .obj [("key", .str "x"), ("value", .arr [.obj [("toString", .null)]])]])

/-! ## Facts about the registry operations -/

theorem mem_mapSet {m : Registry} {k : String} {v : Link} {p : String × Link}
    (h : p ∈ mapSet m k v) : p = (k, v) ∨ p ∈ m := by
  induction m with
  | nil => simp [mapSet] at h; exact Or.inl h
  | cons hd tl ih =>
    obtain ⟨k1, v1⟩ := hd
    by_cases hk : k1 = k
    · simp [mapSet, hk] at h
      rcases h with h | h
      · exact Or.inl h
      · exact Or.inr (List.mem_cons_of_mem _ h)
    · simp [mapSet, hk] at h
      rcases h with h | h
      · exact Or.inr (by simp [h])
      · rcases ih h with h1 | h1
        · exact Or.inl h1
        · exact Or.inr (List.mem_cons_of_mem _ h1)

theorem mapSet_of_not_mem {m : Registry} {k : String} (v : Link) (h : k ∉ mapKeys m) :
    mapSet m k v = m ++ [(k, v)] := by
  induction m with
  | nil => rfl
  | cons hd tl ih =>
    obtain ⟨k1, v1⟩ := hd
    simp [mapKeys] at h
    have hk : ¬ k1 = k := fun e => h.1 e.symm
    have h2 : k ∉ mapKeys tl := by simpa [mapKeys] using h.2
    simp [mapSet, hk, ih h2]

theorem mapGet_mem {m : Registry} {k : String} {v : Link} (h : mapGet m k = some v) :
    (k, v) ∈ m := by
  induction m with
  | nil => simp [mapGet] at h
  | cons hd tl ih =>
    obtain ⟨k1, v1⟩ := hd
    by_cases hk : k1 = k
    · simp [mapGet, hk] at h
      simp [hk, h]
    · simp [mapGet, hk] at h
      exact List.mem_cons_of_mem _ (ih h)

theorem mem_mapDelete {m : Registry} {k : String} {p : String × Link}
    (h : p ∈ mapDelete m k) : p ∈ m ∧ p.1 ≠ k := by
  simpa [mapDelete] using h

theorem not_mem_mapKeys_mapDelete (m : Registry) (k : String) : k ∉ mapKeys (mapDelete m k) := by
  simp [mapKeys, mapDelete]

theorem mapGet_eq_none_of_not_mem {m : Registry} {k : String} (h : k ∉ mapKeys m) :
    mapGet m k = none := by
  induction m with
  | nil => rfl
  | cons hd tl ih =>
    obtain ⟨k1, v1⟩ := hd
    simp [mapKeys] at h
    have hk : ¬ k1 = k := fun e => h.1 e.symm
    have h2 : k ∉ mapKeys tl := by simpa [mapKeys] using h.2
    simp [mapGet, hk, ih h2]

theorem mapGet_mapSet_self (m : Registry) (k : String) (v : Link) :
    mapGet (mapSet m k v) k = some v := by
  induction m with
  | nil => simp [mapSet, mapGet]
  | cons hd tl ih =>
    obtain ⟨k1, v1⟩ := hd
    by_cases hk : k1 = k <;> simp [mapSet, mapGet, hk, ih]

/-! ## The clock suffix of a key -/

theorem digitVal_digitChar (k : Nat) (h : k < 10) : digitVal (Nat.digitChar k) = k := by
  interval_cases k <;> decide

theorem decode_toDigitsCore (fuel n : Nat) (ds : List Char) (h : n < fuel) :
    decodeDigits 0 (Nat.toDigitsCore 10 fuel n ds) = decodeDigits n ds := by
  induction fuel generalizing n ds with
  | zero => omega
  | succ fuel ih =>
    unfold Nat.toDigitsCore
    simp only
    split
    · rename_i h0
      have hn : n % 10 = n := by omega
      simp only [decodeDigits, List.foldl_cons, Nat.zero_mul, Nat.zero_add]
      rw [digitVal_digitChar _ (Nat.mod_lt n (by decide)), hn]
    · rename_i h0
      rw [ih (n / 10) _ (by omega)]
      simp only [decodeDigits, List.foldl_cons, digitVal_digitChar _ (Nat.mod_lt n (by decide))]
      congr 1
      omega

/-- Two numbers with the same decimal text are equal. -/
theorem toString_nat_injective {a b : Nat} (h : toString a = toString b) : a = b := by
  have h1 : Nat.toDigits 10 a = Nat.toDigits 10 b := by
    have : (Nat.toDigits 10 a).asString = (Nat.toDigits 10 b).asString := h
    exact congrArg String.data this
  have ha := decode_toDigitsCore (a + 1) a [] (by omega)
  have hb := decode_toDigitsCore (b + 1) b [] (by omega)
  unfold Nat.toDigits at h1
  rw [h1, hb] at ha
  simpa [decodeDigits] using ha.symm

/-- Keys built from one id with different clock values are different. -/
theorem suffix_injective (s : String) {a b : Nat}
    (h : s ++ "_" ++ toString a = s ++ "_" ++ toString b) : a = b := by
  apply toString_nat_injective
  have := congrArg String.data h
  simp only [String.data_append, List.append_assoc] at this
  have h2 := List.append_cancel_left (List.append_cancel_left this)
  exact String.ext h2

/-- A key with a clock suffix is never the bare id. -/
theorem suffix_ne (s : String) (a : Nat) : s ++ "_" ++ toString a ≠ s := by
  intro h
  have := congrArg String.length h
  simp only [String.length_append] at this
  have : ("_" : String).length = 1 := by decide
  omega

/-! ## Starting a job: `share` up to its timers -/

/-- C2: when `getPostID` hands back `null` or `undefined`, `share` throws its error
before it touches anything: the state after the call is the state before it, so the
registry `total` has the same keys and records, no job closure exists and neither the
recurring timer nor the deadline timer has been created; seen as a turn of the event
loop the call leaves the state as it was. -/
theorem share_without_id_changes_nothing (w : World) (cookies url : String)
    (amount interval : Nat) (id : IdValue) (accessToken : Option String) (dateNow : Nat)
    (h : id = IdValue.null ∨ id = IdValue.undefined) :
    (share w cookies url amount interval id accessToken dateNow).2 = some noIdError ∧
    (share w cookies url amount interval id accessToken dateNow).1 = w ∧
    (share w cookies url amount interval id accessToken dateNow).1.total = w.total ∧
    (share w cookies url amount interval id accessToken dateNow).1.jobs = w.jobs ∧
    (share w cookies url amount interval id accessToken dateNow).1.removals = w.removals ∧
    step w (.share cookies url amount interval id accessToken dateNow) = some w := by
  rcases h with h | h <;> subst h <;> simp [share, IdValue.truthy, step]

theorem share_without_id_changes_nothing_witness :
    (share World.init "c" "https://example.com/post/1" 3 1 IdValue.null (some "EAAG") 5).2
        = some noIdError ∧
    (share World.init "c" "https://example.com/post/1" 3 1 IdValue.null (some "EAAG") 5).1
        = World.init ∧
    (share World.init "c" "https://example.com/post/1" 3 1 IdValue.null (some "EAAG") 5).1.total
        = World.init.total ∧
    (share World.init "c" "https://example.com/post/1" 3 1 IdValue.null (some "EAAG") 5).1.jobs
        = World.init.jobs ∧
    (share World.init "c" "https://example.com/post/1" 3 1 IdValue.null (some "EAAG") 5).1.removals
        = World.init.removals ∧
    step World.init (.share "c" "https://example.com/post/1" 3 1 IdValue.null (some "EAAG") 5)
        = some World.init :=
  share_without_id_changes_nothing World.init "c" "https://example.com/post/1" 3 1
    IdValue.null (some "EAAG") 5 (Or.inl rfl)

/-- C1, the code at the failing input: with a post id but no access token (`null` from
`getAccessToken`) `share` throws nothing, stores the record in `total` and arms both
timers; `POST /api/submit` with such a credential answers 200 and leaves that state. -/
theorem share_without_token_starts_job :
    share World.init "sb=abc; c_user=42" "https://example.com/post/1" 3 1 (IdValue.str "100")
        none 1700000000000 =
      ({ now := 0,
         total := [("100", { url := "https://example.com/post/1", id := "100", count := 0,
                             target := 3 })],
         jobs := [{ postId := "100", id := "100", url := "https://example.com/post/1",
                    cookies := "sb=abc; c_user=42", accessToken := none, amount := 3,
                    interval := 1, sharedCount := 0, timer := some 1000,
                    deadline := some 3000, posts := 0, pending := 0 }],
         removals := [] }, none) ∧
    submit parseSample World.init "[..]" "https://example.com/post/1" 3 1 (IdValue.str "100")
        none 1700000000000 =
      ((share World.init "sb=abc; c_user=42" "https://example.com/post/1" 3 1
        (IdValue.str "100") none 1700000000000).1, 200) := by
  constructor
  · decide
  · rfl

/-- C4, as stated, fails: three submissions for the id `100`, the last two in the same
millisecond.  The third call computes the key `100_1700000000000`, which is a key of the
registry at that moment, and overwrites the live record of the second job
(target 3) with its own (target 9); afterwards two jobs share one key. -/
theorem share_same_clock_collides :
    ∃ w, run World.init
        [.share "c" "u" 2 1 (IdValue.str "100") (some "EAAG") 1699999999000,
         .share "c" "u" 3 1 (IdValue.str "100") (some "EAAG") 1700000000000] = some w ∧
      mapKeys w.total = ["100", "100_1700000000000"] ∧
      mapGet w.total "100_1700000000000" = some ⟨"u", "100", 0, 3⟩ ∧
      sharePostId w.total "100" 1700000000000 ∈ mapKeys w.total ∧
      mapKeys (share w "c" "u" 9 1 (IdValue.str "100") (some "EAAG") 1700000000000).1.total
        = ["100", "100_1700000000000"] ∧
      mapGet (share w "c" "u" 9 1 (IdValue.str "100") (some "EAAG") 1700000000000).1.total
        "100_1700000000000" = some ⟨"u", "100", 0, 9⟩ ∧
      ((share w "c" "u" 9 1 (IdValue.str "100") (some "EAAG") 1700000000000).1.jobs.map
        Job.postId) = ["100", "100_1700000000000", "100_1700000000000"] := by
  refine ⟨_, rfl, ?_⟩
  decide

/-- C4, amended: a call of `share` stores its record under a key that is different from
every key currently in the registry, and leaves every record already there in place,
whenever the resolved id is not a key, or the id followed by `_` and the value returned by
the clock is not a key.  The key is the id or that suffixed id; the suffixed id is never
the id itself, and two clock values give the same suffixed id only if they are equal. -/
theorem share_key_fresh (w : World) (cookies url : String) (amount interval : Nat)
    (id : IdValue) (s : String) (accessToken : Option String) (dateNow : Nat)
    (hid : id.truthy = some s)
    (hclock : s ∈ mapKeys w.total → s ++ "_" ++ toString dateNow ∉ mapKeys w.total) :
    sharePostId w.total s dateNow ∉ mapKeys w.total ∧
    (share w cookies url amount interval id accessToken dateNow).1.total =
      w.total ++ [(sharePostId w.total s dateNow,
        { url := url, id := s, count := 0, target := amount })] ∧
    (share w cookies url amount interval id accessToken dateNow).2 = none ∧
    (sharePostId w.total s dateNow = s ∨
      sharePostId w.total s dateNow = s ++ "_" ++ toString dateNow) ∧
    s ++ "_" ++ toString dateNow ≠ s ∧
    (∀ other : Nat, s ++ "_" ++ toString other = s ++ "_" ++ toString dateNow →
      other = dateNow) := by
  have hfresh : sharePostId w.total s dateNow ∉ mapKeys w.total := by
    unfold sharePostId mapHas
    by_cases hs : s ∈ mapKeys w.total
    · simpa [hs] using hclock hs
    · simp [hs]
  refine ⟨hfresh, ?_, ?_, ?_, suffix_ne s dateNow, fun other h => suffix_injective s h⟩
  · simp only [share, hid]
    exact mapSet_of_not_mem _ hfresh
  · simp [share, hid]
  · unfold sharePostId
    split
    · exact Or.inr rfl
    · exact Or.inl rfl

theorem share_key_fresh_witness :
    sharePostId [("100", ⟨"u", "100", 1, 2⟩)] "100" 1700000000000 ∉
      mapKeys [("100", ⟨"u", "100", 1, 2⟩)] ∧
    (share { now := 0, total := [("100", ⟨"u", "100", 1, 2⟩)], jobs := [], removals := [] }
      "c" "u" 3 1 (IdValue.str "100") (some "EAAG") 1700000000000).1.total =
      [("100", ⟨"u", "100", 1, 2⟩)] ++ [(sharePostId [("100", ⟨"u", "100", 1, 2⟩)] "100"
        1700000000000, { url := "u", id := "100", count := 0, target := 3 })] :=
  ⟨(share_key_fresh
      { now := 0, total := [("100", ⟨"u", "100", 1, 2⟩)], jobs := [], removals := [] }
      "c" "u" 3 1 (IdValue.str "100") "100" (some "EAAG") 1700000000000
      (by decide) (by decide)).1,
   (share_key_fresh
      { now := 0, total := [("100", ⟨"u", "100", 1, 2⟩)], jobs := [], removals := [] }
      "c" "u" 3 1 (IdValue.str "100") "100" (some "EAAG") 1700000000000
      (by decide) (by decide)).2.1⟩

/-! ## The invariants hold in every reachable state -/

theorem timerDelay_pos (ms : Nat) : 1 ≤ timerDelay ms := by
  unfold timerDelay; split <;> omega

theorem timerDelay_of_le {ms : Nat} (h1 : 1 ≤ ms) (h2 : ms ≤ TIMEOUT_MAX) : timerDelay ms = ms := by
  unfold timerDelay; simp [h1, h2]

/-- The deadline delay is at most `amount` periods of the recurring timer. -/
theorem deadlineOf_le (job : Job) (h : 1 ≤ job.amount) :
    deadlineOf job ≤ job.amount * everyOf job := by
  unfold deadlineOf everyOf
  by_cases hd : 1 ≤ job.amount * job.interval * 1000 ∧ job.amount * job.interval * 1000 ≤ TIMEOUT_MAX
  · have hle : job.interval * 1000 ≤ job.amount * job.interval * 1000 := by
      rw [Nat.mul_assoc]; exact Nat.le_mul_of_pos_left _ h
    have hpos : 1 ≤ job.interval * 1000 := by
      rcases Nat.eq_zero_or_pos (job.interval * 1000) with h0 | h0
      · rw [Nat.mul_assoc, h0] at hd; omega
      · exact h0
    rw [timerDelay_of_le hd.1 hd.2, timerDelay_of_le hpos (le_trans hle hd.2), Nat.mul_assoc]
  · have h1 : timerDelay (job.amount * job.interval * 1000) = 1 := by
      unfold timerDelay; simp only [hd, if_false]
    rw [h1]
    exact Nat.mul_pos h (timerDelay_pos _)

theorem sharedSum_append (l : List Job) (job : Job) (k : String) :
    sharedSum (l ++ [job]) k = sharedSum l k + (if job.postId = k then job.sharedCount else 0) := by
  induction l with
  | nil => simp [sharedSum]
  | cons hd tl ih => simp [sharedSum, ih, Nat.add_assoc]

/-- Replacing closure `j` by one with the same key changes the sum by the change of its
`sharedCount`. -/
theorem sharedSum_set (l : List Job) (j : Nat) (a b : Job) (k : String)
    (hget : l[j]? = some b) (hpost : a.postId = b.postId) :
    sharedSum (l.set j a) k + (if b.postId = k then b.sharedCount else 0) =
      sharedSum l k + (if b.postId = k then a.sharedCount else 0) := by
  induction l generalizing j with
  | nil => simp at hget
  | cons hd tl ih =>
    cases j with
    | zero =>
      simp at hget
      subst hget
      simp only [List.set, sharedSum, hpost]
      omega
    | succ n =>
      simp at hget
      have := ih n hget
      simp only [List.set, sharedSum]
      omega

theorem sharedSum_set_le (l : List Job) (j : Nat) (a b : Job) (k : String)
    (hget : l[j]? = some b) (hpost : a.postId = b.postId) (hle : b.sharedCount ≤ a.sharedCount) :
    sharedSum l k ≤ sharedSum (l.set j a) k := by
  have := sharedSum_set l j a b k hget hpost
  split at this <;> omega

theorem sharedSum_eq_filter (l : List Job) (k : String) :
    sharedSum l k = ((l.filter (fun job => decide (job.postId = k))).map Job.sharedCount).sum := by
  induction l with
  | nil => rfl
  | cons hd tl ih =>
    by_cases h : hd.postId = k <;> simp [sharedSum, List.filter, h, ih]

theorem mem_set_of_getElem? {l : List Job} {j : Nat} {b : Job} (a : Job) (hget : l[j]? = some b) :
    a ∈ l.set j a := by
  obtain ⟨hlt, _⟩ := List.getElem?_eq_some.mp hget
  exact List.mem_set l j hlt a

theorem mem_set_or_eq {l : List Job} {j : Nat} {b x : Job} (a : Job) (hget : l[j]? = some b)
    (hx : x ∈ l) : x ∈ l.set j a ∨ x = b := by
  induction l generalizing j with
  | nil => simp at hx
  | cons hd tl ih =>
    cases j with
    | zero =>
      simp at hget
      rcases List.mem_cons.mp hx with h | h
      · exact Or.inr (h.trans hget)
      · exact Or.inl (by simp [List.set, h])
    | succ n =>
      simp at hget
      rcases List.mem_cons.mp hx with h | h
      · exact Or.inl (by simp [List.set, h])
      · rcases ih hget h with h1 | h1
        · exact Or.inl (by simp [List.set, h1])
        · exact Or.inr h1

/-- Writing back a closure that kept its key and its amount, and whose `sharedCount` did
not decrease, keeps the invariant, provided every record of the new registry is a record
of the old one or the old record of the key of the closure with `count` one higher, the
latter only if `sharedCount` is one higher too. -/
theorem inv_update {total total1 : Registry} {jobs : List Job} (hinv : Inv total jobs)
    {j : Nat} {a b : Job} (hget : jobs[j]? = some b)
    (hpost : a.postId = b.postId) (hamt : a.amount = b.amount) (hok : JobOk a)
    (hle : b.sharedCount ≤ a.sharedCount)
    (htotal : ∀ p ∈ total1, p ∈ total ∨
      (a.sharedCount = b.sharedCount + 1 ∧ p.1 = b.postId ∧
        ∃ link, (b.postId, link) ∈ total ∧ p.2 = { link with count := link.count + 1 })) :
    Inv total1 (jobs.set j a) := by
  refine ⟨?_, ?_, ?_⟩
  · intro x hx
    rcases List.mem_or_eq_of_mem_set hx with h | h
    · exact hinv.closures x h
    · exact h ▸ hok
  · intro p hp
    rcases htotal p hp with h | ⟨hsc, hkey, link, hlink, hp2⟩
    · exact le_trans (hinv.counts p h) (sharedSum_set_le jobs j a b p.1 hget hpost hle)
    · have h1 := hinv.counts _ hlink
      have h2 := sharedSum_set jobs j a b p.1 hget hpost
      simp only [hkey, if_true] at h2
      simp only [hkey] at h1 ⊢
      rw [hp2]
      simp only
      omega
  · intro p hp
    have key : ∀ q ∈ total, ∃ job ∈ jobs.set j a, job.postId = q.1 ∧ q.2.target = job.amount := by
      intro q hq
      obtain ⟨x, hx, hx1, hx2⟩ := hinv.targets q hq
      rcases mem_set_or_eq a hget hx with h | h
      · exact ⟨x, h, hx1, hx2⟩
      · exact ⟨a, mem_set_of_getElem? a hget, by rw [hpost, ← h, hx1], by rw [hamt, ← h, hx2]⟩
    rcases htotal p hp with h | ⟨_, hkey, link, hlink, hp2⟩
    · exact key p h
    · obtain ⟨x, hx, hx1, hx2⟩ := key _ hlink
      exact ⟨x, hx, by rw [hx1, hkey], by rw [hp2]; exact hx2⟩

theorem canFire_spec {w : World} {due : Nat} (h : canFire w due = true) : due ≤ w.now := by
  simpa [canFire] using h

theorem inv_init : Inv World.init.total World.init.jobs :=
  ⟨by simp [World.init], by simp [World.init], by simp [World.init]⟩

theorem inv_share {w : World} (hinv : Inv w.total w.jobs) (cookies url : String)
    (amount interval : Nat) (id : IdValue) (accessToken : Option String) (dateNow : Nat) :
    Inv (share w cookies url amount interval id accessToken dateNow).1.total
      (share w cookies url amount interval id accessToken dateNow).1.jobs := by
  unfold share
  cases hid : id.truthy with
  | none => exact hinv
  | some s =>
    simp only
    refine ⟨?_, ?_, ?_⟩
    · intro x hx
      rcases List.mem_append.mp hx with h | h
      · exact hinv.closures x h
      · have hx1 := List.mem_singleton.mp h
        subst hx1
        refine ⟨by simp, ?_, by simp⟩
        intro t ht
        simp only [Option.some.injEq] at ht
        refine ⟨_, rfl, ?_⟩
        simp only [everyOf, deadlineOf]
        omega
    · intro p hp
      rcases mem_mapSet hp with h | h
      · subst h; simp
      · rw [sharedSum_append]
        exact Nat.le_add_right_of_le (hinv.counts p h)
    · intro p hp
      rcases mem_mapSet hp with h | h
      · subst h
        exact ⟨_, List.mem_append_right _ (List.mem_singleton_self _), rfl, rfl⟩
      · obtain ⟨x, hx, hx1, hx2⟩ := hinv.targets p h
        exact ⟨x, List.mem_append_left _ hx, hx1, hx2⟩

theorem jobOk_tick {w : World} {job : Job} {due : Nat} (hok : JobOk job)
    (htimer : job.timer = some due) (hfire : canFire w due = true)
    (hturn : inTurn job due = true) :
    JobOk { job with posts := job.posts + 1, pending := job.pending + 1,
                     timer := some (w.now + timerDelay (job.interval * 1000)) } := by
  have hnow := canFire_spec hfire
  obtain ⟨c, hc, hle⟩ := hok.armed due htimer
  simp only [inTurn, hc, decide_eq_true_eq] at hturn
  have hset := hok.settled
  have hsplit : (job.posts + 1) * timerDelay (job.interval * 1000) =
      job.posts * timerDelay (job.interval * 1000) + timerDelay (job.interval * 1000) := by
    ring
  refine ⟨by simp only; omega, ?_, ?_⟩
  · intro t ht
    simp only [Option.some.injEq] at ht
    refine ⟨c, hc, ?_⟩
    simp only [everyOf, deadlineOf] at hle ⊢
    rw [← ht]
    have : (job.posts + 1 + 1) * timerDelay (job.interval * 1000) =
        (job.posts + 1) * timerDelay (job.interval * 1000) + timerDelay (job.interval * 1000) := by
      ring
    omega
  · intro hamount
    simp only at hamount ⊢
    have hD := deadlineOf_le job hamount
    simp only [everyOf] at hle hD
    have hmul : job.posts * timerDelay (job.interval * 1000) <
        job.amount * timerDelay (job.interval * 1000) := by omega
    have := Nat.lt_of_mul_lt_mul_right hmul
    omega

theorem jobOk_clear {job : Job} (hok : JobOk job) : JobOk (clearInterval job) :=
  ⟨hok.settled, by intro t ht; simp [clearInterval] at ht, hok.bounded⟩

theorem inv_done {w : World} {j : Nat} {a b : Job} (hget : w.jobs[j]? = some b)
    {t : Registry} (hinv : Inv t w.jobs)
    (hpost : a.postId = b.postId) (hamt : a.amount = b.amount) (hok : JobOk a)
    (hle : b.sharedCount ≤ a.sharedCount)
    (htotal : ∀ p ∈ w.total, p ∈ t ∨
      (a.sharedCount = b.sharedCount + 1 ∧ p.1 = b.postId ∧
        ∃ link, (b.postId, link) ∈ t ∧ p.2 = { link with count := link.count + 1 })) :
    Inv (sharePostDone w j a).total (sharePostDone w j a).jobs := by
  unfold sharePostDone
  split
  · exact inv_update hinv hget hpost hamt (jobOk_clear hok) hle htotal
  · exact inv_update hinv hget hpost hamt hok hle htotal

theorem inv_catch {w : World} {j : Nat} {a b : Job} (hget : w.jobs[j]? = some b)
    (hinv : Inv w.total w.jobs)
    (hpost : a.postId = b.postId) (hamt : a.amount = b.amount) (hok : JobOk a)
    (hle : b.sharedCount ≤ a.sharedCount) :
    Inv (sharePostCatch w j a).total (sharePostCatch w j a).jobs := by
  unfold sharePostCatch
  exact inv_update hinv hget hpost hamt (jobOk_clear hok) hle
    (fun p hp => Or.inl (mem_mapDelete hp).1)

/-- Every event keeps the invariant. -/
theorem inv_step {w w1 : World} (hinv : Inv w.total w.jobs) {e : Event}
    (h : step w e = some w1) : Inv w1.total w1.jobs := by
  cases e with
  | advance dt =>
    simp only [step, Option.some.injEq] at h
    subst h; exact hinv
  | share cookies url amount interval id accessToken dateNow =>
    simp only [step, Option.some.injEq] at h
    subst h; exact inv_share hinv _ _ _ _ _ _ _
  | tick j =>
    simp only [step] at h
    split at h
    · simp at h
    · rename_i job hget
      split at h
      · simp at h
      · rename_i due htimer
        split at h
        · rename_i hfire
          simp only [Option.some.injEq] at h
          subst h
          have hmem : job ∈ w.jobs := List.getElem?_mem hget
          simp only [Bool.and_eq_true] at hfire
          exact inv_update hinv hget rfl rfl
            (jobOk_tick (hinv.closures job hmem) htimer hfire.1 hfire.2) (le_refl _)
            (fun p hp => Or.inl hp)
        · simp at h
  | deadline j =>
    simp only [step] at h
    split at h
    · simp at h
    · rename_i job hget
      split at h
      · simp at h
      · split at h
        · simp only [Option.some.injEq] at h
          subst h
          have hok := hinv.closures job (List.getElem?_mem hget)
          have hok1 : JobOk (clearInterval { job with deadline := none }) :=
            ⟨hok.settled, by intro t ht; simp [clearInterval] at ht, hok.bounded⟩
          exact inv_update hinv hget rfl rfl hok1 (le_refl _) (fun p hp => Or.inl hp)
        · simp at h
  | remove r =>
    simp only [step] at h
    split at h
    · simp only [Option.some.injEq] at h
      subst h
      exact ⟨hinv.closures, fun p hp => hinv.counts p (mem_mapDelete hp).1,
        fun p hp => hinv.targets p (mem_mapDelete hp).1⟩
    · simp at h
  | settle j r =>
    simp only [step] at h
    split at h
    · simp at h
    · rename_i job hget
      split at h
      · simp at h
      · rename_i hpend
        simp only [Option.some.injEq] at h
        subst h
        have hok := hinv.closures job (List.getElem?_mem hget)
        have hok1 : JobOk { job with pending := job.pending - 1 } :=
          ⟨by have := hok.settled; simp only; omega, hok.armed, hok.bounded⟩
        unfold sharePostSettled
        split
        · exact inv_catch hget hinv rfl rfl hok1 (le_refl _)
        · split
          · split
            · exact inv_catch hget hinv rfl rfl hok1 (le_refl _)
            · rename_i link hlink
              have hok2 : JobOk { job with pending := job.pending - 1,
                                           sharedCount := job.sharedCount + 1 } :=
                ⟨by have := hok.settled; simp only; omega, hok.armed, hok.bounded⟩
              refine inv_done (w := { w with total := _ }) (t := w.total) hget hinv rfl rfl
                hok2 (Nat.le_succ _) ?_
              intro p hp
              rcases mem_mapSet hp with h | h
              · refine Or.inr ⟨rfl, by rw [h], link, mapGet_mem hlink, by rw [h]⟩
              · exact Or.inl h
          · exact inv_done hget hinv rfl rfl hok1 (le_refl _) (fun p hp => Or.inl hp)

theorem inv_run {w w1 : World} (hinv : Inv w.total w.jobs) {es : List Event}
    (h : run w es = some w1) : Inv w1.total w1.jobs := by
  induction es generalizing w with
  | nil =>
    simp only [run, Option.some.injEq] at h
    subst h; exact hinv
  | cons e es ih =>
    simp only [run] at h
    cases hs : step w e with
    | none => simp [hs] at h
    | some w2 =>
      rw [hs] at h
      exact ih (inv_step hinv hs) h

/-- C3, as stated, fails, in two ways; every job has a positive amount.
* Three submissions for the id `100`, the last two in the same millisecond: job 1
  (amount 3) and job 2 (amount 1) are both stored under the key `100_1700000000000`, the
  record being the one of job 2.  One successful write of each raises it to count 2 with
  target 1.
* Job 0 (amount 1) fails its only write and is deleted; its deadline timer, never cleared,
  still runs and schedules a deletion of the key `100`.  Job 1 (amount 2, every 400 s) is
  stored under the free key `100`; at 301 s the stale deletion removes its record.  Job 2
  (amount 1, every 100 s) is stored under the key `100`, free again.  Its write at 401.5 s
  succeeds (count 1 = target 1); the write of job 1 at 402 s succeeds too and raises the
  same record to count 2 with target 1. -/
theorem count_exceeds_target_on_shared_key :
    (∃ w, run World.init
        [.share "c" "u" 5 1 (IdValue.str "100") (some "EAAG") 1699999999000,
         .share "c" "u" 3 1 (IdValue.str "100") (some "EAAG") 1700000000000,
         .share "c" "u" 1 1 (IdValue.str "100") (some "EAAG") 1700000000000,
         .advance 1000, .tick 1, .settle 1 (Reply.status 200),
         .tick 2, .settle 2 (Reply.status 200)] = some w ∧
      w.jobs.map Job.postId = ["100", "100_1700000000000", "100_1700000000000"] ∧
      w.jobs.map Job.amount = [5, 3, 1] ∧
      mapGet w.total "100_1700000000000" =
        some { url := "u", id := "100", count := 2, target := 1 }) ∧
    (∃ w, run World.init
        [.share "c" "u" 1 1 (IdValue.str "100") (some "EAAG") 1700000000000,
         .advance 1000, .tick 0, .deadline 0, .settle 0 (Reply.status 500),
         .advance 1000,
         .share "c" "u" 2 400 (IdValue.str "100") (some "EAAG") 1700000002000,
         .advance 299000, .remove ⟨301000, "100"⟩,
         .advance 500,
         .share "c" "u" 1 100 (IdValue.str "100") (some "EAAG") 1700000301500,
         .advance 100000, .tick 2, .settle 2 (Reply.status 200), .deadline 2,
         .advance 500, .tick 1, .settle 1 (Reply.status 200)] = some w ∧
      w.now = 402000 ∧
      w.jobs.map Job.postId = ["100", "100", "100"] ∧
      w.jobs.map Job.amount = [1, 2, 1] ∧
      mapGet w.total "100" = some { url := "u", id := "100", count := 2, target := 1 }) := by
  refine ⟨⟨_, rfl, ?_⟩, ⟨_, rfl, ?_⟩⟩ <;> decide

/-! ## The record of a job whose key no running job shares -/

theorem mapGet_mapSet_ne (m : Registry) {k1 k : String} (v : Link) (h : k1 ≠ k) :
    mapGet (mapSet m k1 v) k = mapGet m k := by
  induction m with
  | nil => simp [mapSet, mapGet, h]
  | cons hd tl ih =>
    obtain ⟨k2, v2⟩ := hd
    by_cases hk : k2 = k1
    · subst hk
      simp [mapSet, mapGet, h]
    · by_cases hk2 : k2 = k
      · simp only [mapSet, if_neg hk, mapGet, if_pos hk2]
      · simp only [mapSet, if_neg hk, mapGet, if_neg hk2, ih]

theorem mapDelete_cons (k2 : String) (v2 : Link) (tl : Registry) (p : String) :
    mapDelete ((k2, v2) :: tl) p =
      if k2 = p then mapDelete tl p else (k2, v2) :: mapDelete tl p := by
  by_cases hp : k2 = p <;> simp [mapDelete, List.filter_cons, hp]

theorem mapGet_mapDelete {m : Registry} {p k : String} {link : Link}
    (h : mapGet (mapDelete m p) k = some link) : mapGet m k = some link := by
  induction m with
  | nil => simp [mapDelete, mapGet] at h
  | cons hd tl ih =>
    obtain ⟨k2, v2⟩ := hd
    rw [mapDelete_cons] at h
    by_cases hp : k2 = p
    · rw [if_pos hp] at h
      have hne : k2 ≠ k := by
        intro hk
        have := (mem_mapDelete (mapGet_mem h)).2
        exact this (by rw [← hk, hp])
      simp only [mapGet, if_neg hne]
      exact ih h
    · rw [if_neg hp] at h
      by_cases hk : k2 = k
      · simp only [mapGet, if_pos hk] at h ⊢
        exact h
      · simp only [mapGet, if_neg hk] at h ⊢
        exact ih h

/-- What one event does to the closures and to the records: it leaves the closures alone
and adds no record; or it appends one closure and touches the record of its key only; or
it writes back one closure, with its key and amount, a job that could no longer write
still being so, and every record is as before or is the record of that key with its count
and the counter of the closure both one higher. -/
theorem step_effect {w w1 : World} {e : Event} (h : step w e = some w1) :
    (w1.jobs = w.jobs ∧ ∀ k link, mapGet w1.total k = some link → mapGet w.total k = some link) ∨
    (∃ job, w1.jobs = w.jobs ++ [job] ∧
      ∀ k link, k ≠ job.postId → mapGet w1.total k = some link → mapGet w.total k = some link) ∨
    (∃ j a b, w.jobs[j]? = some b ∧ w1.jobs = w.jobs.set j a ∧ a.postId = b.postId ∧
      a.amount = b.amount ∧ (b.over → a.over) ∧ b.sharedCount ≤ a.sharedCount ∧
      ∀ k link, mapGet w1.total k = some link →
        mapGet w.total k = some link ∨
        (k = b.postId ∧ ¬ b.over ∧ a.sharedCount = b.sharedCount + 1 ∧
          ∃ link0, mapGet w.total k = some link0 ∧ link.target = link0.target ∧
            link.count = link0.count + 1)) := by
  cases e with
  | advance dt =>
    simp only [step, Option.some.injEq] at h
    subst h
    exact Or.inl ⟨rfl, fun _ _ hl => hl⟩
  | share cookies url amount interval id accessToken dateNow =>
    simp only [step, Option.some.injEq] at h
    subst h
    unfold share
    cases id.truthy with
    | none => exact Or.inl ⟨rfl, fun _ _ hl => hl⟩
    | some s =>
      refine Or.inr (Or.inl ⟨_, rfl, ?_⟩)
      intro k link hk hl
      simp only at hk hl
      rwa [mapGet_mapSet_ne _ _ (Ne.symm hk)] at hl
  | tick j =>
    simp only [step] at h
    split at h
    · simp at h
    · rename_i job hget
      split at h
      · simp at h
      · rename_i due htimer
        split at h
        · simp only [Option.some.injEq] at h
          subst h
          refine Or.inr (Or.inr ⟨j, _, job, hget, rfl, rfl, rfl, ?_, le_refl _, ?_⟩)
          · intro hover
            rw [hover.1] at htimer
            simp at htimer
          · intro k link hl
            exact Or.inl hl
        · simp at h
  | deadline j =>
    simp only [step] at h
    split at h
    · simp at h
    · rename_i job hget
      split at h
      · simp at h
      · split at h
        · simp only [Option.some.injEq] at h
          subst h
          refine Or.inr (Or.inr ⟨j, _, job, hget, rfl, rfl, rfl, ?_, le_refl _, ?_⟩)
          · intro hover
            exact ⟨rfl, hover.2⟩
          · intro k link hl
            exact Or.inl hl
        · simp at h
  | remove r =>
    simp only [step] at h
    split at h
    · simp only [Option.some.injEq] at h
      subst h
      exact Or.inl ⟨rfl, fun _ _ hl => mapGet_mapDelete hl⟩
    · simp at h
  | settle j r =>
    simp only [step] at h
    split at h
    · simp at h
    · rename_i job hget
      split at h
      · simp at h
      · rename_i hpend
        simp only [Option.some.injEq] at h
        subst h
        have hlive : ¬ job.over := fun hover => hpend hover.2
        have hnot : ∀ a : Job, job.over → a.over := fun a hover => absurd hover hlive
        have hcatch : ∀ k link,
            mapGet (sharePostCatch w j { job with pending := job.pending - 1 }).total k =
              some link → mapGet w.total k = some link := by
          intro k link hl
          exact mapGet_mapDelete hl
        unfold sharePostSettled
        split
        · exact Or.inr (Or.inr ⟨j, _, job, hget, rfl, rfl, rfl, hnot _, le_refl _,
            fun k link hl => Or.inl (hcatch k link hl)⟩)
        · split
          · split
            · exact Or.inr (Or.inr ⟨j, _, job, hget, rfl, rfl, rfl, hnot _, le_refl _,
                fun k link hl => Or.inl (hcatch k link hl)⟩)
            · rename_i link0 hlink0
              have hrec : ∀ k link,
                  mapGet (mapSet w.total job.postId { link0 with count := link0.count + 1 }) k =
                    some link →
                  mapGet w.total k = some link ∨
                  (k = job.postId ∧ ¬ job.over ∧ job.sharedCount + 1 = job.sharedCount + 1 ∧
                    ∃ l0, mapGet w.total k = some l0 ∧ link.target = l0.target ∧
                      link.count = l0.count + 1) := by
                intro k link hl
                by_cases hk : job.postId = k
                · subst hk
                  rw [mapGet_mapSet_self] at hl
                  have hl1 := Option.some.inj hl
                  exact Or.inr ⟨rfl, hlive, rfl, link0, hlink0, by rw [← hl1], by rw [← hl1]⟩
                · rw [mapGet_mapSet_ne _ _ hk] at hl
                  exact Or.inl hl
              unfold sharePostDone
              split
              · exact Or.inr (Or.inr ⟨j, _, job, hget, rfl, rfl, rfl, hnot _, Nat.le_succ _,
                  hrec⟩)
              · exact Or.inr (Or.inr ⟨j, _, job, hget, rfl, rfl, rfl, hnot _, Nat.le_succ _,
                  hrec⟩)
          · unfold sharePostDone
            split
            · exact Or.inr (Or.inr ⟨j, _, job, hget, rfl, rfl, rfl, hnot _, le_refl _,
                fun k link hl => Or.inl hl⟩)
            · exact Or.inr (Or.inr ⟨j, _, job, hget, rfl, rfl, rfl, hnot _, le_refl _,
                fun k link hl => Or.inl hl⟩)

theorem map_postId_set {l : List Job} {j : Nat} {a b : Job} (hget : l[j]? = some b)
    (hpost : a.postId = b.postId) : (l.set j a).map Job.postId = l.map Job.postId := by
  induction l generalizing j with
  | nil => simp
  | cons hd tl ih =>
    cases j with
    | zero =>
      simp at hget
      simp [List.set, hpost, hget]
    | succ n =>
      simp at hget
      simp [List.set, ih hget]

/-- An event keeps the keys of the jobs and may append one. -/
theorem jobKeys_step {w w1 : World} {e : Event} (h : step w e = some w1) :
    ∃ extra, jobKeys w1 = jobKeys w ++ extra := by
  rcases step_effect h with ⟨hj, _⟩ | ⟨job, hj, _⟩ | ⟨j, a, b, hget, hj, hpost, _⟩
  · exact ⟨[], by simp [jobKeys, hj]⟩
  · exact ⟨[job.postId], by simp [jobKeys, hj]⟩
  · exact ⟨[], by simp [jobKeys, hj, map_postId_set hget hpost]⟩

theorem jobKeys_run {w w1 : World} {es : List Event} (h : run w es = some w1) :
    ∃ extra, jobKeys w1 = jobKeys w ++ extra := by
  induction es generalizing w with
  | nil =>
    simp only [run, Option.some.injEq] at h
    subst h
    exact ⟨[], by simp⟩
  | cons e es ih =>
    simp only [run] at h
    cases hs : step w e with
    | none => simp [hs] at h
    | some w2 =>
      rw [hs] at h
      obtain ⟨x1, h1⟩ := jobKeys_step hs
      obtain ⟨x2, h2⟩ := ih h
      exact ⟨x1 ++ x2, by rw [h2, h1, List.append_assoc]⟩

theorem not_mem_drop_of_append {k : String} {l extra : List String} {m : Nat}
    (h : k ∉ (l ++ extra).drop m) : k ∉ l.drop m := by
  intro hmem
  apply h
  rw [List.drop_append_eq_append_drop]
  exact List.mem_append_left _ hmem

theorem mem_drop_jobKeys {w : World} {j m : Nat} {job : Job} (hget : w.jobs[j]? = some job)
    (hle : m ≤ j) : job.postId ∈ (jobKeys w).drop m := by
  have h1 : ((jobKeys w).drop m)[j - m]? = some job.postId := by
    rw [List.getElem?_drop, jobKeys, List.getElem?_map]
    have : m + (j - m) = j := by omega
    rw [this, hget]
    rfl
  exact List.getElem?_mem h1

/-- An event keeps every closure in its place, with its key and its amount. -/
theorem job_kept_step {w w1 : World} {e : Event} (h : step w e = some w1) {n : Nat} {job : Job}
    (hjob : w.jobs[n]? = some job) :
    ∃ job1, w1.jobs[n]? = some job1 ∧ job1.postId = job.postId ∧ job1.amount = job.amount := by
  obtain ⟨hlt, _⟩ := List.getElem?_eq_some.mp hjob
  rcases step_effect h with ⟨hj, _⟩ | ⟨x, hj, _⟩ | ⟨j, a, b, hget, hj, hpost, hamt, _⟩
  · exact ⟨job, by rw [hj, hjob], rfl, rfl⟩
  · exact ⟨job, by rw [hj, List.getElem?_append_left hlt, hjob], rfl, rfl⟩
  · by_cases hjn : j = n
    · subst hjn
      have hb : b = job := by rw [hget] at hjob; exact Option.some.inj hjob
      exact ⟨a, by rw [hj, List.getElem?_set_self hlt], by rw [hpost, hb], by rw [hamt, hb]⟩
    · exact ⟨job, by rw [hj, List.getElem?_set_ne hjn, hjob], rfl, rfl⟩

theorem job_kept_run {w w1 : World} {es : List Event} (h : run w es = some w1) {n : Nat}
    {job : Job} (hjob : w.jobs[n]? = some job) :
    ∃ job1, w1.jobs[n]? = some job1 ∧ job1.postId = job.postId ∧ job1.amount = job.amount := by
  induction es generalizing w job with
  | nil =>
    simp only [run, Option.some.injEq] at h
    subst h
    exact ⟨job, hjob, rfl, rfl⟩
  | cons e es ih =>
    simp only [run] at h
    cases hs : step w e with
    | none => simp [hs] at h
    | some w2 =>
      rw [hs] at h
      obtain ⟨job2, hjob2, hp2, ha2⟩ := job_kept_step hs hjob
      obtain ⟨job1, hjob1, hp1, ha1⟩ := ih h hjob2
      exact ⟨job1, hjob1, by rw [hp1, hp2], by rw [ha1, ha2]⟩

/-- An event after which no later job is stored under the key `k` keeps `Owns`. -/
theorem owns_step {w w1 : World} {n : Nat} {k : String} {amount : Nat} (hown : Owns w n k amount)
    {e : Event} (h : step w e = some w1) (hlast : k ∉ (jobKeys w1).drop (n + 1)) :
    Owns w1 n k amount := by
  obtain ⟨hearlier, owner, hown1, hkey, hamt, hlink⟩ := hown
  obtain ⟨hlt, _⟩ := List.getElem?_eq_some.mp hown1
  rcases step_effect h with ⟨hj, htot⟩ | ⟨x, hj, htot⟩ |
    ⟨j, a, b, hget, hj, hpost, hamount, hover, hsc, htot⟩
  · refine ⟨?_, owner, by rw [hj, hown1], hkey, hamt, fun link hl => hlink link (htot k link hl)⟩
    intro i job hi hjob
    rw [hj] at hjob
    exact hearlier i job hi hjob
  · have hne : k ≠ x.postId := by
      intro hk
      apply hlast
      have hx : w1.jobs[w.jobs.length]? = some x := by
        rw [hj]; simp
      rw [hk]
      exact mem_drop_jobKeys hx (by omega)
    refine ⟨?_, owner, by rw [hj, List.getElem?_append_left hlt, hown1], hkey, hamt,
      fun link hl => hlink link (htot k link hne hl)⟩
    intro i job hi hjob
    rw [hj, List.getElem?_append_left (by omega)] at hjob
    exact hearlier i job hi hjob
  · obtain ⟨hjlt, _⟩ := List.getElem?_eq_some.mp hget
    have hearlier1 : ∀ i job, i < n → w1.jobs[i]? = some job → job.postId = k → job.over := by
      intro i job hi hjob hk
      rw [hj] at hjob
      by_cases hji : j = i
      · subst hji
        rw [List.getElem?_set_self hjlt] at hjob
        have ha : a = job := Option.some.inj hjob
        subst ha
        exact hover (hearlier j b hi hget (by rw [← hpost, hk]))
      · rw [List.getElem?_set_ne hji] at hjob
        exact hearlier i job hi hjob hk
    by_cases hjn : j = n
    · subst hjn
      have hb : b = owner := by rw [hget] at hown1; exact Option.some.inj hown1
      subst hb
      refine ⟨hearlier1, a, by rw [hj, List.getElem?_set_self hlt], by rw [hpost, hkey],
        by rw [hamount, hamt], ?_⟩
      intro link hl
      rcases htot k link hl with h0 | ⟨_, _, hsc1, link0, h0, ht, hc⟩
      · have := hlink link h0
        exact ⟨this.1, le_trans this.2 hsc⟩
      · have := hlink link0 h0
        exact ⟨by rw [ht, this.1], by omega⟩
    · refine ⟨hearlier1, owner, by rw [hj, List.getElem?_set_ne hjn, hown1], hkey, hamt, ?_⟩
      intro link hl
      rcases htot k link hl with h0 | ⟨hk, hlive, _⟩
      · exact hlink link h0
      · exfalso
        rcases Nat.lt_or_gt_of_ne hjn with hlt1 | hgt1
        · exact hlive (hearlier j b hlt1 hget hk.symm)
        · apply hlast
          have ha : w1.jobs[j]? = some a := by rw [hj, List.getElem?_set_self hjlt]
          have := mem_drop_jobKeys ha (m := n + 1) (by omega)
          rwa [hpost, ← hk] at this

theorem owns_run {w w1 : World} {n : Nat} {k : String} {amount : Nat} (hown : Owns w n k amount)
    {es : List Event} (h : run w es = some w1) (hlast : k ∉ (jobKeys w1).drop (n + 1)) :
    Owns w1 n k amount := by
  induction es generalizing w with
  | nil =>
    simp only [run, Option.some.injEq] at h
    subst h
    exact hown
  | cons e es ih =>
    simp only [run] at h
    cases hs : step w e with
    | none => simp [hs] at h
    | some w2 =>
      rw [hs] at h
      obtain ⟨extra, hx⟩ := jobKeys_run h
      have hlast2 := hlast
      rw [hx] at hlast2
      exact ih (owns_step hown hs (not_mem_drop_of_append hlast2)) h

/-- C3, amended: take any state reached from a fresh process, by whatever submissions,
timer runs and write outcomes, and a call of `share` in it that creates a job with a
positive integer `amount`.  In every state reached afterwards the job is stored under the
same key with the same amount, has issued at most `amount` writes and counted at most
`amount` successes.  If moreover every job stored under that key before could no longer
write when the job was created (recurring timer cleared, no write outstanding), and no
job created later is stored under that key, then the record under the key, while present,
has `target = amount`, counts at most the successes of the job, and `count ≤ target`. -/
theorem count_le_target (es0 : List Event) (w0 : World) (h0 : run World.init es0 = some w0)
    (cookies url : String) (amount interval : Nat) (id : IdValue) (s : String)
    (accessToken : Option String) (dateNow : Nat) (hid : id.truthy = some s)
    (hamount : 1 ≤ amount) (es : List Event) (w : World)
    (hrun : run (share w0 cookies url amount interval id accessToken dateNow).1 es = some w) :
    ∃ job, w.jobs[w0.jobs.length]? = some job ∧
      job.postId = sharePostId w0.total s dateNow ∧ job.amount = amount ∧
      job.posts ≤ amount ∧ job.sharedCount ≤ amount ∧
      ((∀ x ∈ w0.jobs, x.postId = sharePostId w0.total s dateNow → x.over) →
        sharePostId w0.total s dateNow ∉ (jobKeys w).drop (w0.jobs.length + 1) →
        ∀ link, mapGet w.total (sharePostId w0.total s dateNow) = some link →
          link.target = amount ∧ link.count ≤ job.sharedCount ∧ link.count ≤ link.target) := by
  have hinv0 : Inv w0.total w0.jobs := inv_run inv_init h0
  have hinv : Inv w.total w.jobs := inv_run (inv_share hinv0 _ _ _ _ _ _ _) hrun
  have hnew : ∃ job, (share w0 cookies url amount interval id accessToken dateNow).1.jobs =
      w0.jobs ++ [job] ∧ job.postId = sharePostId w0.total s dateNow ∧ job.amount = amount ∧
      job.sharedCount = 0 ∧
      (share w0 cookies url amount interval id accessToken dateNow).1.total =
        mapSet w0.total (sharePostId w0.total s dateNow)
          { url := url, id := s, count := 0, target := amount } := by
    exact ⟨{ postId := sharePostId w0.total s dateNow, id := s, url := url, cookies := cookies,
             accessToken := accessToken, amount := amount, interval := interval,
             sharedCount := 0, timer := some (w0.now + timerDelay (interval * 1000)),
             deadline := some (w0.now + timerDelay (amount * interval * 1000)),
             posts := 0, pending := 0 },
      by simp only [share, hid], rfl, rfl, rfl, by simp only [share, hid]⟩
  obtain ⟨new, hjobs, hnkey, hnamt, hnsc, htotal⟩ := hnew
  have hat : (share w0 cookies url amount interval id accessToken dateNow).1.jobs[w0.jobs.length]? =
      some new := by
    rw [hjobs]; simp
  obtain ⟨job, hjob, hkey, hamt⟩ := job_kept_run hrun hat
  rw [hnkey] at hkey
  rw [hnamt] at hamt
  have hok := hinv.closures job (List.getElem?_mem hjob)
  have hposts : job.posts ≤ amount := by
    have := hok.bounded (by rw [hamt]; exact hamount)
    rwa [hamt] at this
  have hsc : job.sharedCount ≤ amount := by have := hok.settled; omega
  refine ⟨job, hjob, hkey, hamt, hposts, hsc, ?_⟩
  intro hover hlast link hlink
  have hown0 : Owns (share w0 cookies url amount interval id accessToken dateNow).1
      w0.jobs.length (sharePostId w0.total s dateNow) amount := by
    refine ⟨?_, new, hat, hnkey, hnamt, ?_⟩
    · intro i x hi hx hxk
      rw [hjobs, List.getElem?_append_left hi] at hx
      exact hover x (List.getElem?_mem hx) hxk
    · intro l hl
      rw [htotal, mapGet_mapSet_self] at hl
      have := Option.some.inj hl
      subst this
      exact ⟨rfl, Nat.zero_le _⟩
  obtain ⟨_, owner, howner, _, _, hbound⟩ := owns_run hown0 hrun hlast
  have hsame : owner = job := by rw [hjob] at howner; exact (Option.some.inj howner).symm
  subst hsame
  have := hbound link hlink
  exact ⟨this.1, this.2, by rw [this.1]; exact le_trans this.2 hsc⟩

theorem count_le_target_witness :
    ∃ job,
      ([sampleJob none none 0 1 0,
        { postId := "100", id := "100", url := "u", cookies := "c", accessToken := some "EAAG",
          amount := 2, interval := 1, sharedCount := 2, timer := none, deadline := some 3000,
          posts := 2, pending := 0 }] : List Job)[1]? = some job ∧
      job.postId = "100" ∧ job.amount = 2 ∧ job.posts ≤ 2 ∧ job.sharedCount ≤ 2 ∧
      ∀ link, mapGet [("100", ⟨"u", "100", 2, 2⟩)] "100" = some link →
        link.target = 2 ∧ link.count ≤ job.sharedCount ∧ link.count ≤ link.target := by
  obtain ⟨job, h1, h2, h3, h4, h5, h6⟩ := count_le_target
    [.share "c" "u" 1 1 (IdValue.str "100") (some "EAAG") 1700000000000,
     .advance 1000, .tick 0, .deadline 0, .settle 0 (Reply.status 500)]
    { now := 1000, total := [], jobs := [sampleJob none none 0 1 0],
      removals := [⟨301000, "100"⟩] }
    (by decide) "c" "u" 2 1 (IdValue.str "100") "100" (some "EAAG") 1700000001000
    (by decide) (by decide)
    [.advance 1000, .tick 1, .settle 1 (Reply.status 200),
     .advance 1000, .tick 1, .settle 1 (Reply.status 200)]
    { now := 3000, total := [("100", ⟨"u", "100", 2, 2⟩)],
      jobs := [sampleJob none none 0 1 0,
               { postId := "100", id := "100", url := "u", cookies := "c",
                 accessToken := some "EAAG", amount := 2, interval := 1, sharedCount := 2,
                 timer := none, deadline := some 3000, posts := 2, pending := 0 }],
      removals := [⟨301000, "100"⟩, ⟨303000, "100"⟩] }
    (by decide)
  exact ⟨job, h1, h2, h3, h4, h5, h6 (by decide) (by decide)⟩

/-! ## Termination of a job -/

/-- What the settling part of `sharePost` does to the closures: it writes back closure
`j` only, with the same key, writes issued and deadline timer; the recurring timer is
either untouched or cleared, and it is cleared when the counter has reached `amount`. -/
theorem sharePostSettled_jobs (w : World) (j : Nat) (a : Job) (r : Reply) :
    ∃ a1, (sharePostSettled w j a r).jobs = w.jobs.set j a1 ∧ a1.posts = a.posts ∧
      a1.postId = a.postId ∧ a1.deadline = a.deadline ∧ a1.amount = a.amount ∧
      (a1.timer = none ∨ a1.timer = a.timer) ∧ (a1.sharedCount = a1.amount → a1.timer = none) ∧
      (r.failed → a1.timer = none) := by
  unfold sharePostSettled
  cases hr : r.resolved with
  | none =>
    exact ⟨clearInterval a, rfl, rfl, rfl, rfl, rfl, Or.inl rfl, fun _ => rfl, fun _ => rfl⟩
  | some status =>
    have hnf : ¬ r.failed := by simp [Reply.failed, hr]
    simp only
    split
    · split
      · exact ⟨clearInterval a, rfl, rfl, rfl, rfl, rfl, Or.inl rfl, fun _ => rfl, fun _ => rfl⟩
      · unfold sharePostDone
        split
        · exact ⟨_, rfl, rfl, rfl, rfl, rfl, Or.inl rfl, fun _ => rfl, fun _ => rfl⟩
        · rename_i hne
          exact ⟨_, rfl, rfl, rfl, rfl, rfl, Or.inr rfl, fun h => absurd h hne,
            fun h => absurd h hnf⟩
    · unfold sharePostDone
      split
      · exact ⟨_, rfl, rfl, rfl, rfl, rfl, Or.inl rfl, fun _ => rfl, fun _ => rfl⟩
      · rename_i hne
        exact ⟨_, rfl, rfl, rfl, rfl, rfl, Or.inr rfl, fun h => absurd h hne,
          fun h => absurd h hnf⟩

theorem stopped_set {w : World} {j n k : Nat} {a b : Job} (h : Stopped w j n)
    (hget : w.jobs[k]? = some b) (hposts : a.posts = b.posts)
    (htimer : b.timer = none → a.timer = none) {w1 : World} (hjobs : w1.jobs = w.jobs.set k a) :
    Stopped w1 j n := by
  obtain ⟨job, hjob, ht, hn⟩ := h
  by_cases hk : k = j
  · subst hk
    have hb : b = job := by rw [hget] at hjob; exact Option.some.inj hjob
    subst hb
    obtain ⟨hlt, _⟩ := List.getElem?_eq_some.mp hget
    exact ⟨a, by rw [hjobs, List.getElem?_set_self hlt], htimer ht, by rw [hposts, hn]⟩
  · exact ⟨job, by rw [hjobs, List.getElem?_set_ne hk, hjob], ht, hn⟩

/-- Once the recurring timer of a job is cleared it stays cleared and the job issues no
further write, whatever event comes next. -/
theorem stopped_step {w w1 : World} {j n : Nat} (h : Stopped w j n) {e : Event}
    (hs : step w e = some w1) : Stopped w1 j n := by
  cases e with
  | advance dt =>
    simp only [step, Option.some.injEq] at hs
    subst hs; exact h
  | share cookies url amount interval id accessToken dateNow =>
    simp only [step, Option.some.injEq] at hs
    subst hs
    unfold share
    cases id.truthy with
    | none => exact h
    | some s =>
      obtain ⟨job, hjob, ht, hn⟩ := h
      obtain ⟨hlt, _⟩ := List.getElem?_eq_some.mp hjob
      exact ⟨job, by simp only; rw [List.getElem?_append_left hlt, hjob], ht, hn⟩
  | tick k =>
    simp only [step] at hs
    split at hs
    · simp at hs
    · rename_i b hget
      split at hs
      · simp at hs
      · rename_i due htimer
        split at hs
        · simp only [Option.some.injEq] at hs
          subst hs
          obtain ⟨job, hjob, ht, hn⟩ := h
          by_cases hk : k = j
          · subst hk
            rw [hget] at hjob
            have hb : b = job := Option.some.inj hjob
            rw [hb, ht] at htimer
            simp at htimer
          · exact ⟨job, by simp only [sharePostStart]; rw [List.getElem?_set_ne hk, hjob], ht, hn⟩
        · simp at hs
  | deadline k =>
    simp only [step] at hs
    split at hs
    · simp at hs
    · rename_i b hget
      split at hs
      · simp at hs
      · split at hs
        · simp only [Option.some.injEq] at hs
          subst hs
          exact stopped_set h hget (a := clearInterval { b with deadline := none }) rfl
            (fun _ => rfl) rfl
        · simp at hs
  | remove r =>
    simp only [step] at hs
    split at hs
    · simp only [Option.some.injEq] at hs
      subst hs; exact h
    · simp at hs
  | settle k r =>
    simp only [step] at hs
    split at hs
    · simp at hs
    · rename_i b hget
      split at hs
      · simp at hs
      · simp only [Option.some.injEq] at hs
        subst hs
        obtain ⟨a1, hjobs, hposts, _, _, _, htimer, _, _⟩ :=
          sharePostSettled_jobs w k { b with pending := b.pending - 1 } r
        refine stopped_set h hget (a := a1) hposts ?_ hjobs
        intro hb
        rcases htimer with h1 | h1
        · exact h1
        · rw [h1]; exact hb

theorem stopped_run {w w1 : World} {j n : Nat} (h : Stopped w j n) {es : List Event}
    (hr : run w es = some w1) : Stopped w1 j n := by
  induction es generalizing w with
  | nil =>
    simp only [run, Option.some.injEq] at hr
    subst hr; exact h
  | cons e es ih =>
    simp only [run] at hr
    cases hs : step w e with
    | none => simp [hs] at hr
    | some w2 =>
      rw [hs] at hr
      exact ih (stopped_step h hs) hr

/-- A job whose recurring timer is cleared cannot tick. -/
theorem stopped_no_tick {w : World} {j n : Nat} (h : Stopped w j n) :
    step w (.tick j) = none := by
  obtain ⟨job, hjob, ht, _⟩ := h
  simp [step, hjob, ht]

/-- What a settling `sharePost` leaves of the closure: the job as it was, one write
less outstanding, apart from the counter and the recurring timer. -/
theorem step_settle_spec {w w1 : World} {j : Nat} {job : Job} {r : Reply}
    (hjob : w.jobs[j]? = some job) (hs : step w (.settle j r) = some w1) :
    job.pending ≠ 0 ∧ w1 = sharePostSettled w j { job with pending := job.pending - 1 } r := by
  simp only [step, hjob] at hs
  split at hs
  · simp at hs
  · rename_i hp
    simp only [Option.some.injEq] at hs
    exact ⟨hp, hs.symm⟩

/-- C5: when the remote write of a tick of job `j` fails (network error or an answer
outside 2xx), the rest of that tick clears the recurring timer and deletes the key of the
job from the registry at once; no deletion timer is added (no observation window); and in
every later state the recurring timer is still cleared, the job has issued no further
write and cannot tick.  Example: amount 3, every second; the first write is answered 200,
the second 500: before the answer the record has count 1, right after it the record is
gone, nothing is pending for later and the job cannot tick. -/
theorem failed_write_ends_job (w w1 : World) (j : Nat) (job : Job) (r : Reply)
    (hjob : w.jobs[j]? = some job) (hfail : r.failed)
    (hstep : step w (.settle j r) = some w1) :
    Stopped w1 j job.posts ∧
    job.postId ∉ mapKeys w1.total ∧ mapGet w1.total job.postId = none ∧
    w1.removals = w.removals ∧
    (∀ es w2, run w1 es = some w2 → Stopped w2 j job.posts ∧ step w2 (.tick j) = none) ∧
    (∃ wa wb, run World.init
        [.share "c" "u" 3 1 (IdValue.str "100") (some "EAAG") 1700000000000,
         .advance 1000, .tick 0, .settle 0 (Reply.status 200),
         .advance 1000, .tick 0] = some wa ∧
      mapGet wa.total "100" = some { url := "u", id := "100", count := 1, target := 3 } ∧
      step wa (.settle 0 (Reply.status 500)) = some wb ∧
      wb.now = 2000 ∧ wb.total = [] ∧ wb.removals = [] ∧
      wb.jobs.map Job.timer = [none] ∧ wb.jobs.map Job.posts = [2] ∧
      step wb (.tick 0) = none) := by
  obtain ⟨_, hw1⟩ := step_settle_spec hjob hstep
  have hres : r.resolved = none := hfail
  have hw1c : w1 = sharePostCatch w j { job with pending := job.pending - 1 } := by
    rw [hw1]; unfold sharePostSettled; rw [hres]
  obtain ⟨hlt, _⟩ := List.getElem?_eq_some.mp hjob
  have hstop : Stopped w1 j job.posts :=
    ⟨clearInterval { job with pending := job.pending - 1 },
      by rw [hw1c]; simp only [sharePostCatch]; rw [List.getElem?_set_self hlt], rfl, rfl⟩
  have hkey : job.postId ∉ mapKeys w1.total := by
    rw [hw1c]; exact not_mem_mapKeys_mapDelete _ _
  refine ⟨hstop, hkey, mapGet_eq_none_of_not_mem hkey, by rw [hw1c]; rfl, ?_, ?_⟩
  · intro es w2 hr
    exact ⟨stopped_run hstop hr, stopped_no_tick (stopped_run hstop hr)⟩
  · refine ⟨_, _, rfl, ?_, rfl, ?_⟩
    · decide
    · decide

theorem failed_write_ends_job_witness :
    Stopped { now := 1000, total := [], removals := [],
              jobs := [{ postId := "100", id := "100", url := "u", cookies := "c",
                         accessToken := some "EAAG", amount := 3, interval := 1,
                         sharedCount := 0, timer := none, deadline := some 3000, posts := 1,
                         pending := 0 }] } 0 1 :=
  (failed_write_ends_job
    { now := 1000, total := [("100", ⟨"u", "100", 0, 3⟩)], removals := [],
      jobs := [{ postId := "100", id := "100", url := "u", cookies := "c",
                 accessToken := some "EAAG", amount := 3, interval := 1,
                 sharedCount := 0, timer := some 2000, deadline := some 3000, posts := 1,
                 pending := 1 }] }
    _ 0 _ Reply.networkError rfl (by decide) rfl).1

/-- C7, as stated, fails: the deadline timer is never cleared.  Job 0 (amount 1) fails its
only write at 1 s and is over: its record is deleted and its recurring timer cleared, but
its deadline timer is still pending.  That timer runs and schedules the deletion of the
key `100` for 301 s.  At 2 s job 1 (amount 2, every 400 s) is stored under the free key
`100`.  At 301 s the deletion left by job 0 removes the record of job 1, which is still
running with both its timers armed. -/
theorem stale_timer_deletes_later_job :
    ∃ w1 w2 w3, run World.init
        [.share "c" "u" 1 1 (IdValue.str "100") (some "EAAG") 1700000000000,
         .advance 1000, .tick 0, .settle 0 (Reply.status 500)] = some w1 ∧
      w1.total = [] ∧ w1.jobs.map Job.timer = [none] ∧
      w1.jobs.map Job.deadline = [some 1000] ∧
      run w1 [.deadline 0, .advance 1000,
        .share "c" "v" 2 400 (IdValue.str "100") (some "EAAG") 1700000002000] = some w2 ∧
      w2.total = [("100", { url := "v", id := "100", count := 0, target := 2 })] ∧
      w2.removals = [⟨301000, "100"⟩] ∧
      run w2 [.advance 299000, .remove ⟨301000, "100"⟩] = some w3 ∧
      w3.now = 301000 ∧ w3.total = [] ∧
      w3.jobs.map Job.timer = [none, some 402000] ∧
      w3.jobs.map Job.deadline = [none, some 802000] := by
  refine ⟨_, _, _, rfl, ?_, ?_, ?_, rfl, ?_, ?_, rfl, ?_⟩ <;> decide

/-- C7, amended: on every termination path of a job (a failed write, a settling tick that
leaves the counter equal to `amount`, the deadline timer) the recurring timer of the job
is cleared, and from then on it stays cleared, the job issues no further write and
cannot tick again.  On the two paths that end inside `sharePost` the deadline timer is
left as it was. -/
theorem recurring_timer_cleared_on_termination (w w1 : World) (j : Nat) (job : Job) (r : Reply)
    (hjob : w.jobs[j]? = some job)
    (hterm : (r.failed ∧ step w (.settle j r) = some w1) ∨
      (step w (.settle j r) = some w1 ∧
        ∃ job1, w1.jobs[j]? = some job1 ∧ job1.sharedCount = job1.amount) ∨
      step w (.deadline j) = some w1) :
    Stopped w1 j job.posts ∧
    (∀ es w2, run w1 es = some w2 → Stopped w2 j job.posts ∧ step w2 (.tick j) = none) ∧
    (step w (.settle j r) = some w1 →
      ∃ job1, w1.jobs[j]? = some job1 ∧ job1.deadline = job.deadline) := by
  obtain ⟨hlt, _⟩ := List.getElem?_eq_some.mp hjob
  have hsettle : step w (.settle j r) = some w1 →
      ∃ job1, w1.jobs[j]? = some job1 ∧ job1.posts = job.posts ∧ job1.deadline = job.deadline ∧
        (job1.sharedCount = job1.amount → job1.timer = none) ∧ (r.failed → job1.timer = none) := by
    intro hs
    obtain ⟨_, hw1⟩ := step_settle_spec hjob hs
    obtain ⟨a1, hjobs, hposts, _, hdl, _, _, hdone, hfailed⟩ :=
      sharePostSettled_jobs w j { job with pending := job.pending - 1 } r
    exact ⟨a1, by rw [hw1, hjobs, List.getElem?_set_self hlt], hposts, hdl, hdone, hfailed⟩
  have hstop : Stopped w1 j job.posts := by
    rcases hterm with ⟨hf, hs⟩ | ⟨hs, job1, hjob1, hdone⟩ | hs
    · obtain ⟨a1, ha1, hposts, _, _, hfailed⟩ := hsettle hs
      exact ⟨a1, ha1, hfailed hf, hposts⟩
    · obtain ⟨a1, ha1, hposts, _, hd, _⟩ := hsettle hs
      have : a1 = job1 := by rw [ha1] at hjob1; exact Option.some.inj hjob1
      exact ⟨a1, ha1, hd (this ▸ hdone), hposts⟩
    · simp only [step, hjob] at hs
      split at hs
      · simp at hs
      · split at hs
        · simp only [Option.some.injEq] at hs
          subst hs
          exact ⟨clearInterval { job with deadline := none },
            by simp only [cleanup]; rw [List.getElem?_set_self hlt], rfl, rfl⟩
        · simp at hs
  refine ⟨hstop, fun es w2 hr => ⟨stopped_run hstop hr, stopped_no_tick (stopped_run hstop hr)⟩, ?_⟩
  intro hs
  obtain ⟨a1, ha1, _, hdl, _⟩ := hsettle hs
  exact ⟨a1, ha1, hdl⟩

theorem recurring_timer_cleared_on_termination_witness :
    Stopped { now := 1000, total := [], jobs := [sampleJob none (some 1000) 0 1 0],
              removals := [] } 0 1 ∧
    Stopped { now := 1000, total := [("100", ⟨"u", "100", 1, 1⟩)],
              jobs := [sampleJob none (some 1000) 1 1 0],
              removals := [⟨301000, "100"⟩] } 0 1 ∧
    Stopped { now := 1000, total := [("100", ⟨"u", "100", 0, 1⟩)],
              jobs := [sampleJob none none 0 1 1],
              removals := [⟨301000, "100"⟩] } 0 1 :=
  ⟨(recurring_timer_cleared_on_termination
      { now := 1000, total := [("100", ⟨"u", "100", 0, 1⟩)],
        jobs := [sampleJob (some 2000) (some 1000) 0 1 1], removals := [] }
      _ 0 _ Reply.networkError rfl (Or.inl ⟨by decide, rfl⟩)).1,
   (recurring_timer_cleared_on_termination
      { now := 1000, total := [("100", ⟨"u", "100", 0, 1⟩)],
        jobs := [sampleJob (some 2000) (some 1000) 0 1 1], removals := [] }
      _ 0 _ (Reply.status 200) rfl (Or.inr (Or.inl ⟨rfl, _, rfl, rfl⟩))).1,
   (recurring_timer_cleared_on_termination
      { now := 1000, total := [("100", ⟨"u", "100", 0, 1⟩)],
        jobs := [sampleJob (some 2000) (some 1000) 0 1 1], removals := [] }
      _ 0 _ Reply.networkError rfl (Or.inr (Or.inr rfl))).1⟩

/-! ## The observation window -/

theorem timerDelay_window : timerDelay WINDOW = 300000 := by decide

/-- Without a new submission, a quiet state stays quiet, the registry only loses records,
and it loses none before the window of `300000` ms is over. -/
theorem quiet_step {w w1 : World} {since : Nat} (hq : Quiet w since) {e : Event}
    (hshare : e.isShare = false) (hs : step w e = some w1) :
    Quiet w1 since ∧ w.now ≤ w1.now ∧ (∀ p ∈ w1.total, p ∈ w.total) ∧
      (w1.now < since + 300000 → w1.total = w.total) := by
  cases e with
  | advance dt =>
    simp only [step, Option.some.injEq] at hs
    subst hs
    exact ⟨⟨Nat.le_add_right_of_le hq.clock, hq.deletions, hq.idle⟩, Nat.le_add_right _ _,
      fun p hp => hp, fun _ => rfl⟩
  | share cookies url amount interval id accessToken dateNow => simp [Event.isShare] at hshare
  | tick j =>
    simp only [step] at hs
    split at hs
    · simp at hs
    · rename_i job hget
      rw [(hq.idle job (List.getElem?_mem hget)).2] at hs
      simp at hs
  | deadline j =>
    simp only [step] at hs
    split at hs
    · simp at hs
    · rename_i job hget
      split at hs
      · simp at hs
      · split at hs
        · simp only [Option.some.injEq] at hs
          subst hs
          refine ⟨⟨hq.clock, ?_, ?_⟩, le_refl _, fun p hp => hp, fun _ => rfl⟩
          · intro r hr
            simp only [cleanup, List.mem_append, List.mem_singleton] at hr
            rcases hr with hr | hr
            · exact hq.deletions r hr
            · have := hq.clock
              rw [hr, timerDelay_window]
              simp only
              omega
          · intro x hx
            simp only [cleanup] at hx
            rcases List.mem_or_eq_of_mem_set hx with h | h
            · exact hq.idle x h
            · rw [h]
              exact ⟨(hq.idle job (List.getElem?_mem hget)).1, rfl⟩
        · simp at hs
  | remove r =>
    simp only [step] at hs
    split at hs
    · rename_i hfire
      simp only [Option.some.injEq] at hs
      subst hs
      simp only [Bool.and_eq_true, decide_eq_true_eq] at hfire
      have hdue := hq.deletions r hfire.1
      have hnow := canFire_spec hfire.2
      refine ⟨⟨hq.clock, fun x hx => hq.deletions x (List.mem_of_mem_erase hx), hq.idle⟩,
        le_refl _, fun p hp => (mem_mapDelete hp).1, ?_⟩
      intro hlt
      simp only at hlt
      omega
    · simp at hs
  | settle j r =>
    simp only [step] at hs
    split at hs
    · simp at hs
    · rename_i job hget
      rw [(hq.idle job (List.getElem?_mem hget)).1] at hs
      simp at hs

theorem quiet_run {w w1 : World} {since : Nat} (hq : Quiet w since) {es : List Event}
    (hshare : ∀ e ∈ es, e.isShare = false) (hr : run w es = some w1) :
    Quiet w1 since ∧ w.now ≤ w1.now ∧ (∀ p ∈ w1.total, p ∈ w.total) ∧
      (w1.now < since + 300000 → w1.total = w.total) := by
  induction es generalizing w with
  | nil =>
    simp only [run, Option.some.injEq] at hr
    subst hr
    exact ⟨hq, le_refl _, fun p hp => hp, fun _ => rfl⟩
  | cons e es ih =>
    simp only [run] at hr
    cases hs : step w e with
    | none => simp [hs] at hr
    | some w2 =>
      rw [hs] at hr
      obtain ⟨hq2, hnow2, hsub2, hsame2⟩ := quiet_step hq (hshare e (List.mem_cons_self _ _)) hs
      obtain ⟨hq1, hnow1, hsub1, hsame1⟩ :=
        ih hq2 (fun x hx => hshare x (List.mem_cons_of_mem _ hx)) hr
      refine ⟨hq1, le_trans hnow2 hnow1, fun p hp => hsub2 p (hsub1 p hp), ?_⟩
      intro hlt
      rw [hsame1 hlt, hsame2 (by omega)]

/-- C6, the code at the failing inputs; in both runs every remote write is answered 200.
* amount 1, every second, the answer arriving 500 ms after the write: the deadline timer,
  due at 1 s like the only tick, runs right after it and schedules a deletion for 301 s.
  The record reaches count 1 = target at 1.5 s, and the job schedules the deletion of the
  comment `Keep in total for 5 minutes after completion` for 301.5 s.  The deletion left by
  the deadline timer removes the record at 301 s, 299500 ms after completion, not 300000.
* amount 2, every second: at 2 s the second tick and the deadline timer are due together;
  the deadline timer runs first and clears the recurring timer, so the job stays at
  count 1 of 2 for good, it cannot tick again, and its record is deleted at 302 s without
  having reached the target. -/
theorem all_answers_200_target_missed :
    (∃ w1 w2, run World.init
        [.share "c" "u" 1 1 (IdValue.str "100") (some "EAAG") 1700000000000,
         .advance 1000, .tick 0, .deadline 0,
         .advance 500, .settle 0 (Reply.status 200)] = some w1 ∧
      w1.now = 1500 ∧ w1.total = [("100", ⟨"u", "100", 1, 1⟩)] ∧
      w1.removals = [⟨301000, "100"⟩, ⟨301500, "100"⟩] ∧
      run w1 [.advance 299500, .remove ⟨301000, "100"⟩] = some w2 ∧
      w2.now = 301000 ∧ w2.total = []) ∧
    (∃ w1 w2, run World.init
        [.share "c" "u" 2 1 (IdValue.str "100") (some "EAAG") 1700000000000,
         .advance 1000, .tick 0, .settle 0 (Reply.status 200),
         .advance 1000, .deadline 0] = some w1 ∧
      w1.now = 2000 ∧ w1.total = [("100", ⟨"u", "100", 1, 2⟩)] ∧
      w1.jobs.map Job.timer = [none] ∧ w1.jobs.map Job.pending = [0] ∧
      step w1 (.tick 0) = none ∧
      run w1 [.advance 300000, .remove ⟨302000, "100"⟩] = some w2 ∧ w2.total = []) := by
  refine ⟨⟨_, _, rfl, ?_, ?_, ?_, rfl, ?_, ?_⟩, ⟨_, _, rfl, ?_, ?_, ?_, ?_, ?_, rfl, ?_⟩⟩ <;>
    decide

/-! ## The deadline timer -/

/-- What the deadline timer of job `j` does when it runs. -/
theorem step_deadline_spec {v v1 : World} {j : Nat} {job : Job} {due : Nat}
    (hjob : v.jobs[j]? = some job) (hdue : job.deadline = some due)
    (hs : step v (.deadline j) = some v1) :
    due ≤ v.now ∧ v1 = cleanup v j job := by
  simp only [step, hjob, hdue] at hs
  split at hs
  · rename_i hfire
    simp only [Option.some.injEq] at hs
    exact ⟨canFire_spec hfire, hs.symm⟩
  · simp at hs

/-- C8, as stated, fails twice.
* amount 3000, every 1000 s: the requested delay `3000000000` ms is above `TIMEOUT_MAX`, so
  the deadline timer is due 1 ms after the start, not 3000000 s; it runs then and clears
  the recurring timer before any write.
* amount 2, every 5 s, the write of the first tick answered 500, so that no tick is
  successful: the record is gone at 5 s, long before 10 s plus the window. -/
theorem deadline_examples_fail :
    (∃ w1, run World.init
        [.share "c" "u" 3000 1000 (IdValue.str "100") (some "EAAG") 1700000000000] = some w1 ∧
      w1.jobs.map Job.deadline = [some 1] ∧ 3000 * 1000 * 1000 = 3000000000 ∧
      ∃ w2, run w1 [.advance 1, .deadline 0] = some w2 ∧ w2.now = 1 ∧
        w2.jobs.map Job.timer = [none] ∧ w2.jobs.map Job.posts = [0]) ∧
    (∃ w1, run World.init
        [.share "c" "u" 2 5 (IdValue.str "100") (some "EAAG") 1700000000000,
         .advance 5000, .tick 0, .settle 0 (Reply.status 500)] = some w1 ∧
      w1.now = 5000 ∧ w1.jobs.map Job.sharedCount = [0] ∧ mapGet w1.total "100" = none) := by
  refine ⟨⟨_, rfl, ?_, ?_, _, rfl, ?_, ?_, ?_⟩, ⟨_, rfl, ?_, ?_, ?_⟩⟩ <;> decide

/-- C8, amended.  For a job created by `share` whose requested delay
`amount * interval * 1000` lies between 1 and `TIMEOUT_MAX`, the deadline timer is due
exactly that many ms after the start.  Whenever the deadline timer of a job runs, it is
due, the registry is untouched, the recurring timer is cleared, a deletion of the key of
the job is scheduled `300000` ms later, whatever the counter of the job is, and from
then on the job cannot tick and issues no write.  Example: amount 2, every 5 s, both
writes answered 204 (neither counted nor failed): when the deadline timer has run at 10 s
the record is present with count 0; while no new job is submitted it is unchanged at every
instant before 310 s and the deletion cannot run at 309.999 s; at 310 s the deletion
removes it. -/
theorem deadline_timer (w : World) (cookies url : String) (amount interval : Nat)
    (id : IdValue) (s : String) (accessToken : Option String) (dateNow : Nat)
    (hid : id.truthy = some s) (hmin : 1 ≤ amount * interval * 1000)
    (hmax : amount * interval * 1000 ≤ TIMEOUT_MAX) :
    (∃ job, (share w cookies url amount interval id accessToken dateNow).1.jobs = w.jobs ++ [job] ∧
      job.deadline = some (w.now + amount * interval * 1000) ∧
      job.postId = sharePostId w.total s dateNow ∧ job.amount = amount) ∧
    (∀ (v v1 : World) (j : Nat) (job : Job) (due : Nat), v.jobs[j]? = some job →
      job.deadline = some due → step v (.deadline j) = some v1 →
      due ≤ v.now ∧ v1.total = v.total ∧
      v1.removals = v.removals ++ [{ due := v.now + 300000, postId := job.postId }] ∧
      Stopped v1 j job.posts ∧
      (∃ job1, v1.jobs[j]? = some job1 ∧ job1.deadline = none ∧
        job1.sharedCount = job.sharedCount) ∧
      (∀ es v2, run v1 es = some v2 → Stopped v2 j job.posts ∧ step v2 (.tick j) = none)) ∧
    (∃ w1, run World.init
        [.share "c" "u" 2 5 (IdValue.str "100") (some "EAAG") 1700000000000,
         .advance 5000, .tick 0, .settle 0 (Reply.status 204),
         .advance 5000, .tick 0, .settle 0 (Reply.status 204), .deadline 0] = some w1 ∧
      w1.now = 10000 ∧ w1.total = [("100", ⟨"u", "100", 0, 2⟩)] ∧
      w1.removals = [⟨310000, "100"⟩] ∧ step w1 (.tick 0) = none ∧
      (∀ es w2, (∀ e ∈ es, e.isShare = false) → run w1 es = some w2 → w2.now < 310000 →
        w2.total = [("100", ⟨"u", "100", 0, 2⟩)]) ∧
      (∃ w2, run w1 [.advance 299999] = some w2 ∧ w2.now = 309999 ∧
        step w2 (.remove ⟨310000, "100"⟩) = none) ∧
      (∃ w3, run w1 [.advance 300000, .remove ⟨310000, "100"⟩] = some w3 ∧ w3.now = 310000 ∧
        w3.total = [] ∧ step w3 (.tick 0) = none)) := by
  refine ⟨?_, ?_, ?_⟩
  · refine ⟨_, by simp only [share, hid]; rfl, ?_, rfl, rfl⟩
    simp only [timerDelay_of_le hmin hmax]
  · intro v v1 j job due hjob hdue hs
    obtain ⟨hnow, hv1⟩ := step_deadline_spec hjob hdue hs
    obtain ⟨hlt, _⟩ := List.getElem?_eq_some.mp hjob
    have hstop : Stopped v1 j job.posts :=
      ⟨clearInterval { job with deadline := none },
        by rw [hv1]; simp only [cleanup]; rw [List.getElem?_set_self hlt], rfl, rfl⟩
    refine ⟨hnow, by rw [hv1]; rfl, by rw [hv1]; simp only [cleanup, timerDelay_window], hstop,
      ⟨clearInterval { job with deadline := none },
        by rw [hv1]; simp only [cleanup]; rw [List.getElem?_set_self hlt], rfl, rfl⟩, ?_⟩
    intro es v2 hr
    exact ⟨stopped_run hstop hr, stopped_no_tick (stopped_run hstop hr)⟩
  · refine ⟨_, rfl, by decide, by decide, by decide, by decide, ?_, ⟨_, rfl, by decide, by decide⟩,
      ⟨_, rfl, by decide, by decide, by decide⟩⟩
    intro es w2 hshare hrun hlt
    have hq : Quiet
        { now := 10000, total := [("100", ⟨"u", "100", 0, 2⟩)],
          jobs := [{ postId := "100", id := "100", url := "u", cookies := "c",
                     accessToken := some "EAAG", amount := 2, interval := 5, sharedCount := 0,
                     timer := none, deadline := none, posts := 2, pending := 0 }],
          removals := [⟨310000, "100"⟩] } 10000 := by
      refine ⟨le_refl _, ?_, ?_⟩
      · intro r hr
        simp only [List.mem_singleton] at hr
        rw [hr]
      · intro job hjob
        simp only [List.mem_singleton] at hjob
        rw [hjob]
        exact ⟨rfl, rfl⟩
    exact (quiet_run hq hshare hrun).2.2.2 hlt

theorem deadline_timer_witness :
    ∃ job, (share World.init "c" "u" 2 5 (IdValue.str "100") (some "EAAG") 1700000000000).1.jobs =
        World.init.jobs ++ [job] ∧
      job.deadline = some (World.init.now + 2 * 5 * 1000) ∧
      job.postId = sharePostId World.init.total "100" 1700000000000 ∧ job.amount = 2 :=
  (deadline_timer World.init "c" "u" 2 5 (IdValue.str "100") "100" (some "EAAG") 1700000000000
    (by decide) (by decide) (by decide)).1

/-! ## `convertCookie` -/

theorem isSb_iff (k : JsValue) : isSb k = true ↔ k = some (.str "sb") := by
  unfold isSb
  split
  · rename_i s
    simp
  · rename_i hne
    constructor
    · intro h; simp at h
    · intro h; exact absurd h (hne "sb")

theorem findSb_of_no_sb {items : List Json} (h : ∀ c ∈ items, ¬ hasKeySb c) :
    findSb items = .ok none ∨ ∃ e, findSb items = .error e := by
  induction items with
  | nil => exact Or.inl rfl
  | cons c cs ih =>
    unfold findSb
    cases hk : getProp c "key" with
    | error e => exact Or.inr ⟨e, rfl⟩
    | ok k =>
      simp only
      by_cases hsb : isSb k = true
      · have : hasKeySb c := by
          unfold hasKeySb; rw [hk, (isSb_iff k).mp hsb]
        exact absurd this (h c (List.mem_cons_self _ _))
      · simp only [hsb]
        exact ih (fun x hx => h x (List.mem_cons_of_mem _ hx))

/-- The element `find` returns is the first one whose `key` is `sb`. -/
theorem findSb_some {items : List Json} {c : Json} (h : findSb items = .ok (some c)) :
    ∃ before after, items = before ++ c :: after ∧ hasKeySb c ∧ ∀ x ∈ before, ¬ hasKeySb x := by
  induction items with
  | nil => simp [findSb] at h
  | cons d ds ih =>
    unfold findSb at h
    cases hk : getProp d "key" with
    | error e => simp [hk] at h
    | ok k =>
      simp only [hk] at h
      by_cases hsb : isSb k = true
      · simp only [hsb, if_true, Except.ok.injEq, Option.some.injEq] at h
        subst h
        exact ⟨[], ds, rfl, by unfold hasKeySb; rw [hk, (isSb_iff k).mp hsb], by simp⟩
      · simp only [hsb] at h
        obtain ⟨before, after, hitems, hc, hbefore⟩ := ih h
        refine ⟨d :: before, after, by rw [hitems]; rfl, hc, ?_⟩
        intro x hx
        rcases List.mem_cons.mp hx with hx | hx
        · subst hx
          intro hd
          unfold hasKeySb at hd
          rw [hk] at hd
          simp only [Except.ok.injEq] at hd
          exact hsb ((isSb_iff k).mpr hd)
        · exact hbefore x hx

theorem joinStep_isSome (head : Option String) (last : Bool) (tail : Option String) :
    (joinStep head last tail).isSome = (head.isSome && tail.isSome) := by
  cases head <;> cases tail <;> rfl

theorem joinItems_cons_isSome (x : Json) (xs : List Json)
    (hx : (Json.toStr x).isSome = x.printable)
    (hxs : (Json.joinItems xs).isSome = Json.allPrintable xs) :
    (Json.joinItems (x :: xs)).isSome = Json.allPrintable (x :: xs) := by
  cases x with
  | null =>
    simp only [Json.joinItems, Json.allPrintable, joinStep_isSome, hxs, Json.printable]
    rfl
  | bool b => simp only [Json.joinItems, Json.allPrintable, joinStep_isSome, hxs, hx]
  | num t => simp only [Json.joinItems, Json.allPrintable, joinStep_isSome, hxs, hx]
  | str t => simp only [Json.joinItems, Json.allPrintable, joinStep_isSome, hxs, hx]
  | arr items => simp only [Json.joinItems, Json.allPrintable, joinStep_isSome, hxs, hx]
  | obj fields => simp only [Json.joinItems, Json.allPrintable, joinStep_isSome, hxs, hx]

theorem toStr_obj_isSome (fields : List (String × Json)) :
    (Json.toStr (.obj fields)).isSome = (Json.obj fields).printable := by
  simp only [Json.toStr, Json.printable]
  cases fields.any (fun f => f.1 == "toString") <;> rfl

mutual
/-- The shape test `printable` tells whether `ToString` yields a text. -/
theorem toStr_isSome : ∀ j : Json, (Json.toStr j).isSome = j.printable
  | .null => rfl
  | .bool _ => rfl
  | .num _ => rfl
  | .str _ => rfl
  | .arr items => (congrArg Option.isSome (Json.toStr.eq_5 items)).trans
      ((joinItems_isSome items).trans (Json.printable.eq_1 items).symm)
  | .obj fields => toStr_obj_isSome fields
theorem joinItems_isSome : ∀ l : List Json, (Json.joinItems l).isSome = Json.allPrintable l
  | [] => rfl
  | x :: xs => joinItems_cons_isSome x xs (toStr_isSome x) (joinItems_isSome xs)
end

/-- A template literal prints `undefined` and every printable value, and nothing else. -/
theorem jsToString_ok_iff (v : JsValue) :
    (∃ s, jsToString v = .ok s) ↔ (∀ j, v = some j → j.printable = true) := by
  cases v with
  | none => exact ⟨fun _ j hj => by simp at hj, fun _ => ⟨_, rfl⟩⟩
  | some j =>
    have h := toStr_isSome j
    cases hs : j.toStr with
    | none =>
      rw [hs] at h
      constructor
      · rintro ⟨s, hs1⟩
        simp [jsToString, hs] at hs1
      · intro hp
        have := hp j rfl
        rw [← h] at this
        simp at this
    | some t =>
      rw [hs] at h
      constructor
      · intro _ j1 hj1
        have : j = j1 := Option.some.inj hj1
        rw [← this, ← h]; rfl
      · intro _
        exact ⟨t, by simp only [jsToString, hs]⟩

/-- A property that can be read is printed by a template literal exactly when
`printsProp` holds. -/
theorem printsProp_iff {c : Json} {name : String} {v : JsValue} (hv : getProp c name = .ok v) :
    printsProp c name = true ↔ ∃ s, jsToString v = .ok s := by
  rw [jsToString_ok_iff]
  unfold printsProp
  rw [hv]
  cases v with
  | none => simp
  | some j => simp

theorem printsProp_ok {c : Json} {name : String} (h : printsProp c name = true) :
    ∃ v s, getProp c name = .ok v ∧ jsToString v = .ok s := by
  cases hv : getProp c name with
  | error e => simp [printsProp, hv] at h
  | ok v =>
    obtain ⟨s, hs⟩ := (printsProp_iff hv).mp h
    exact ⟨v, s, rfl, hs⟩

/-- The template literal `${c.key}=${c.value}` yields a text exactly when both properties
can be read and printed. -/
theorem cookiePair_ok_iff (c : Json) :
    (∃ p, cookiePair c = .ok p) ↔
      (printsProp c "key" = true ∧ printsProp c "value" = true) := by
  constructor
  · rintro ⟨p, hp⟩
    unfold cookiePair at hp
    cases hk : getProp c "key" with
    | error e => simp [hk] at hp
    | ok k =>
      cases hks : jsToString k with
      | error e => rw [hk] at hp; simp only [hks] at hp; simp at hp
      | ok ks =>
        cases hv : getProp c "value" with
        | error e => rw [hk] at hp; simp only [hks, hv] at hp; simp at hp
        | ok v =>
          cases hvs : jsToString v with
          | error e => rw [hk] at hp; simp only [hks, hv, hvs] at hp; simp at hp
          | ok vs => exact ⟨(printsProp_iff hk).mpr ⟨ks, hks⟩, (printsProp_iff hv).mpr ⟨vs, hvs⟩⟩
  · rintro ⟨hk, hv⟩
    obtain ⟨k, ks, hk1, hks⟩ := printsProp_ok hk
    obtain ⟨v, vs, hv1, hvs⟩ := printsProp_ok hv
    exact ⟨ks ++ "=" ++ vs, by simp only [cookiePair, hk1, hks, hv1, hvs]⟩

theorem cookiePairs_ok_iff (items : List Json) :
    (∃ ps, cookiePairs items = .ok ps) ↔
      ∀ c ∈ items, printsProp c "key" = true ∧ printsProp c "value" = true := by
  induction items with
  | nil => exact ⟨fun _ c hc => by simp at hc, fun _ => ⟨[], rfl⟩⟩
  | cons c cs ih =>
    constructor
    · rintro ⟨ps, hps⟩
      unfold cookiePairs at hps
      cases hp : cookiePair c with
      | error e => simp [hp] at hps
      | ok p =>
        cases hqs : cookiePairs cs with
        | error e => simp [hp, hqs] at hps
        | ok qs =>
          intro x hx
          rcases List.mem_cons.mp hx with hx | hx
          · rw [hx]; exact (cookiePair_ok_iff c).mp ⟨p, hp⟩
          · exact ih.mp ⟨qs, hqs⟩ x hx
    · intro h
      obtain ⟨p, hp⟩ := (cookiePair_ok_iff c).mpr (h c (List.mem_cons_self _ _))
      obtain ⟨ps, hps⟩ := ih.mpr (fun x hx => h x (List.mem_cons_of_mem _ hx))
      exact ⟨p :: ps, by simp only [cookiePairs, hp, hps]⟩

theorem isPair_key {c : Json} (h : isPair c = true) : ∃ k, getProp c "key" = .ok (some k) := by
  unfold isPair at h
  split at h
  · rename_i k v hk hv
    exact ⟨k, hk⟩
  · simp at h

/-- The call `find` returns the first element whose `key` is `sb` when reading the `key`
of the elements before it does not throw. -/
theorem findSb_first {before after : List Json} {sbCookie : Json}
    (hpairs : ∀ x ∈ before, isPair x = true) (hbefore : ∀ x ∈ before, ¬ hasKeySb x)
    (hsb : hasKeySb sbCookie) : findSb (before ++ sbCookie :: after) = .ok (some sbCookie) := by
  induction before with
  | nil =>
    have hk : getProp sbCookie "key" = .ok (some (.str "sb")) := hsb
    simp only [List.nil_append, findSb, hk]
    rfl
  | cons d ds ih =>
    obtain ⟨k, hk⟩ := isPair_key (hpairs d (List.mem_cons_self _ _))
    have hd : ¬ isSb (some k) = true := by
      intro h
      apply hbefore d (List.mem_cons_self _ _)
      unfold hasKeySb
      rw [hk, (isSb_iff _).mp h]
    simp only [List.cons_append, findSb, hk, hd]
    exact ih (fun x hx => hpairs x (List.mem_cons_of_mem _ hx))
      (fun x hx => hbefore x (List.mem_cons_of_mem _ hx))

/-- What a resolved `convertCookie` went through. -/
theorem convertCookie_ok_inv {jsonParse : String → Except String Json} {cookie data : String}
    (h : convertCookie jsonParse cookie = .ok data) :
    ∃ items sbCookie, jsonParse cookie = .ok (.arr items) ∧
      findSb items = .ok (some sbCookie) ∧ printsProp sbCookie "value" = true ∧
      ∃ ps, cookiePairs (items.drop 1) = .ok ps := by
  unfold convertCookie at h
  cases hparse : jsonParse cookie with
  | error e => simp [hparse] at h
  | ok j =>
    cases j with
    | null => simp [hparse] at h
    | bool b => simp [hparse] at h
    | num t => simp [hparse] at h
    | str t => simp [hparse] at h
    | obj fields => simp [hparse] at h
    | arr items =>
      simp only [hparse] at h
      cases hfind : findSb items with
      | error e => simp [hfind] at h
      | ok found =>
        cases found with
        | none => simp [hfind] at h
        | some sbCookie =>
          simp only [hfind] at h
          cases hdata : cookieData items sbCookie with
          | error e => simp [hdata] at h
          | ok d =>
            unfold cookieData at hdata
            cases hval : getProp sbCookie "value" with
            | error e => rw [hval] at hdata; simp at hdata
            | ok sbValue =>
              cases hv : jsToString sbValue with
              | error e => rw [hval] at hdata; simp only [hv] at hdata; simp at hdata
              | ok v =>
                cases hps : cookiePairs (items.drop 1) with
                | error e => rw [hval] at hdata; simp only [hv, hps] at hdata; simp at hdata
                | ok ps =>
                  exact ⟨items, sbCookie, rfl, hfind, (printsProp_iff hval).mpr ⟨v, hv⟩, ps, hps⟩

/-- C9, as stated, fails: each of the two credentials parses to an array of
`{key, value}` objects with an element whose `key` is `sb`, and `convertCookie` rejects it.
* `[{"key":"sb","value":{"toString":1}}]`: the `value` of the `sb` element is an object
  with an own property `toString`, which the template literal cannot convert to a string.
* `[{"key":"sb","value":"abc"},{"key":"x","value":[{"toString":null}]}]`: the same for the
  `value` of the second element, an array holding such an object. -/
theorem convertCookie_rejects_unprintable :
    (PairsWithSb parseUnprintable "[..]" ∧
      convertCookie parseUnprintable "[..]" =
        .error "Error processing appstate: Cannot convert object to primitive value") ∧
    (PairsWithSb parseUnprintableLater "[..]" ∧
      convertCookie parseUnprintableLater "[..]" =
        .error "Error processing appstate: Cannot convert object to primitive value") :=
  ⟨⟨⟨_, rfl, by decide, ⟨_, List.mem_cons_self _ _, rfl⟩⟩, rfl⟩,
   ⟨⟨_, rfl, by decide, ⟨_, List.mem_cons_self _ _, rfl⟩⟩, rfl⟩⟩

/-- C9, amended: `convertCookie` rejects every credential string that `JSON.parse`
refuses, that parses to something other than an array, or that parses to an array without
an element whose `key` is `sb`.  It resolves for every string that parses to an array of
`{key, value}` objects one of which has the `key` `sb`, provided the `value` of the first
`sb` element, and the `key` and `value` of every element but the first of the array, are
printable: not an object with an own property `toString`, nor an array holding an
unprintable value.  Among the arrays of `{key, value}` objects with an `sb` element it
resolves for no other. -/
theorem convertCookie_rejects_and_resolves (jsonParse : String → Except String Json)
    (cookie : String) :
    (BadCredential jsonParse cookie → ∃ reason, convertCookie jsonParse cookie = .error reason) ∧
    (GoodCredential jsonParse cookie → ∃ data, convertCookie jsonParse cookie = .ok data) ∧
    (PairsWithSb jsonParse cookie → (∃ data, convertCookie jsonParse cookie = .ok data) →
      GoodCredential jsonParse cookie) := by
  refine ⟨?_, ?_, ?_⟩
  · rintro (⟨e, he⟩ | ⟨j, hj, hnot⟩ | ⟨items, hitems, hno⟩)
    · exact ⟨_, by simp only [convertCookie, he]; rfl⟩
    · cases j with
      | arr items => exact absurd rfl (hnot items)
      | null => exact ⟨_, by simp only [convertCookie, hj]; rfl⟩
      | bool b => exact ⟨_, by simp only [convertCookie, hj]; rfl⟩
      | num t => exact ⟨_, by simp only [convertCookie, hj]; rfl⟩
      | str t => exact ⟨_, by simp only [convertCookie, hj]; rfl⟩
      | obj fields => exact ⟨_, by simp only [convertCookie, hj]; rfl⟩
    · rcases findSb_of_no_sb hno with h | ⟨e, h⟩
      · exact ⟨_, by simp only [convertCookie, hitems, h]; rfl⟩
      · exact ⟨_, by simp only [convertCookie, hitems, h]; rfl⟩
  · rintro ⟨items, before, sbCookie, after, hitems, hpairs, hshape, hsb, hbefore, hvalue, hrest⟩
    have hfind : findSb items = .ok (some sbCookie) := by
      rw [hshape]
      exact findSb_first
        (fun x hx => hpairs x (by rw [hshape]; exact List.mem_append_left _ hx)) hbefore hsb
    obtain ⟨v, vs, hv, hvs⟩ := printsProp_ok hvalue
    obtain ⟨ps, hps⟩ := (cookiePairs_ok_iff (items.drop 1)).mpr hrest
    exact ⟨_, by simp only [convertCookie, hitems, hfind, cookieData, hv, hvs, hps]; rfl⟩
  · rintro ⟨items, hitems, hpairs, _⟩ ⟨data, hdata⟩
    obtain ⟨items1, sbCookie, hparse, hfind, hvalue, ps, hps⟩ := convertCookie_ok_inv hdata
    have hsame : items1 = items := by
      rw [hitems] at hparse
      simp only [Except.ok.injEq, Json.arr.injEq] at hparse
      exact hparse.symm
    subst hsame
    obtain ⟨before, after, hshape, hsb, hbefore⟩ := findSb_some hfind
    exact ⟨items1, before, sbCookie, after, hitems, hpairs, hshape, hsb, hbefore, hvalue,
      (cookiePairs_ok_iff (items1.drop 1)).mp ⟨ps, hps⟩⟩

theorem convertCookie_rejects_and_resolves_witness :
    (∃ reason, convertCookie (fun _ => .error "Unexpected token o in JSON at position 1")
      "not json" = .error reason) ∧
    (∃ data, convertCookie parseSample "[..]" = .ok data) ∧
    GoodCredential parseSample "[..]" :=
  ⟨(convertCookie_rejects_and_resolves _ "not json").1 (Or.inl ⟨_, rfl⟩),
   (convertCookie_rejects_and_resolves parseSample "[..]").2.1
     ⟨_, [], _, _, rfl, by decide, rfl, rfl, by simp, by decide, by decide⟩,
   (convertCookie_rejects_and_resolves parseSample "[..]").2.2
     ⟨_, rfl, by decide, ⟨_, List.mem_cons_self _ _, rfl⟩⟩ ⟨_, rfl⟩⟩

theorem cookiePairs_length {items : List Json} {ps : List String}
    (h : cookiePairs items = .ok ps) : ps.length = items.length := by
  induction items generalizing ps with
  | nil =>
    simp only [cookiePairs, Except.ok.injEq] at h
    subst h; rfl
  | cons c cs ih =>
    unfold cookiePairs at h
    cases hp : cookiePair c with
    | error e => simp [hp] at h
    | ok p =>
      cases hps : cookiePairs cs with
      | error e => simp [hp, hps] at h
      | ok qs =>
        simp only [hp, hps, Except.ok.injEq] at h
        subst h
        simp [ih hps]

/-- C10: when `convertCookie` resolves, the credential parsed to an array, and the text
is `sb=` followed by the printed `value` of the first element whose `key` is `sb`, then
`; `, then the `key=value` pairs of all elements but the first of the array, joined by
`; `.  So when the array has at least two elements and its first element has the `key`
`sb`, the text is the `key=value` pairs of all elements, one per element in input order,
joined by `; `. -/
theorem convertCookie_data (jsonParse : String → Except String Json) (cookie data : String)
    (h : convertCookie jsonParse cookie = .ok data) :
    ∃ items before sbCookie after v ps,
      jsonParse cookie = .ok (.arr items) ∧
      items = before ++ sbCookie :: after ∧ hasKeySb sbCookie ∧ (∀ x ∈ before, ¬ hasKeySb x) ∧
      (∃ sbValue, getProp sbCookie "value" = .ok sbValue ∧ jsToString sbValue = .ok v) ∧
      cookiePairs (items.drop 1) = .ok ps ∧
      data = "sb=" ++ v ++ "; " ++ joinWith "; " ps ∧
      (∀ first second rest, items = first :: second :: rest → hasKeySb first →
        ∃ all, cookiePairs items = .ok all ∧ all.length = items.length ∧
          data = joinWith "; " all) := by
  unfold convertCookie at h
  cases hparse : jsonParse cookie with
  | error e => simp [hparse] at h
  | ok j =>
    cases j with
    | null => simp [hparse] at h
    | bool b => simp [hparse] at h
    | num t => simp [hparse] at h
    | str t => simp [hparse] at h
    | obj fields => simp [hparse] at h
    | arr items =>
      simp only [hparse] at h
      cases hfind : findSb items with
      | error e => simp [hfind] at h
      | ok found =>
        cases found with
        | none => simp [hfind] at h
        | some sbCookie =>
          simp only [hfind] at h
          cases hdata : cookieData items sbCookie with
          | error e => simp [hdata] at h
          | ok d =>
            simp only [hdata, Except.ok.injEq] at h
            subst h
            unfold cookieData at hdata
            cases hval : getProp sbCookie "value" with
            | error e => rw [hval] at hdata; simp at hdata
            | ok sbValue =>
              cases hv : jsToString sbValue with
              | error e => rw [hval] at hdata; simp only [hv] at hdata; simp at hdata
              | ok v =>
                cases hps : cookiePairs (items.drop 1) with
                | error e => rw [hval] at hdata; simp only [hv, hps] at hdata; simp at hdata
                | ok ps =>
                  simp only [hval, hv, hps, Except.ok.injEq] at hdata
                  obtain ⟨before, after, hitems, hsb, hbefore⟩ := findSb_some hfind
                  refine ⟨items, before, sbCookie, after, v, ps, rfl, hitems, hsb, hbefore,
                    ⟨sbValue, hval, hv⟩, hps, hdata.symm, ?_⟩
                  intro first second rest hshape hfirst
                  have hbnil : before = [] := by
                    cases before with
                    | nil => rfl
                    | cons b bs =>
                      rw [hshape] at hitems
                      simp only [List.cons_append, List.cons.injEq] at hitems
                      exact absurd (hitems.1 ▸ hfirst) (hbefore b (List.mem_cons_self _ _))
                  have hsame : first = sbCookie := by
                    rw [hshape, hbnil] at hitems
                    simp only [List.nil_append, List.cons.injEq] at hitems
                    exact hitems.1
                  subst hsame
                  have hkey : getProp first "key" = .ok (some (.str "sb")) := hfirst
                  have hks : jsToString (some (.str "sb")) = .ok "sb" := rfl
                  have hpair : cookiePair first = .ok ("sb" ++ "=" ++ v) := by
                    simp only [cookiePair, hkey, hks, hval, hv]
                  rw [hshape] at hps
                  simp only [List.drop_succ_cons, List.drop_zero] at hps
                  have hall : cookiePairs (first :: second :: rest) =
                      .ok (("sb" ++ "=" ++ v) :: ps) := by
                    rw [cookiePairs, hpair, hps]
                  have hlen := cookiePairs_length hps
                  refine ⟨_, by rw [hshape]; exact hall, by rw [hshape]; simp [hlen], ?_⟩
                  cases ps with
                  | nil => simp at hlen
                  | cons p qs =>
                    rw [← hdata]
                    simp only [joinWith]
                    have : "sb" ++ "=" = "sb=" := by decide
                    rw [this]

theorem convertCookie_data_witness :
    ∃ items before sbCookie after v ps,
      parseSample "[..]" = .ok (.arr items) ∧
      items = before ++ sbCookie :: after ∧ hasKeySb sbCookie ∧ (∀ x ∈ before, ¬ hasKeySb x) ∧
      (∃ sbValue, getProp sbCookie "value" = .ok sbValue ∧ jsToString sbValue = .ok v) ∧
      cookiePairs (items.drop 1) = .ok ps ∧
      "sb=abc; c_user=42" = "sb=" ++ v ++ "; " ++ joinWith "; " ps ∧
      (∀ first second rest, items = first :: second :: rest → hasKeySb first →
        ∃ all, cookiePairs items = .ok all ∧ all.length = items.length ∧
          "sb=abc; c_user=42" = joinWith "; " all) :=
  convertCookie_data parseSample "[..]" "sb=abc; c_user=42" rfl

end Guard
